import Mathlib

/-!
Verification development for the `labisu` bipartite-subgraph search library.

The Rust source is shallowly embedded:
* `usize` arithmetic is modelled by `Nat` (the spec treats all the involved
  quantities as exact non-negative integers);
* `Vec<T>` is modelled by `List`, `HashSet<usize>` by `Finset ℕ` (an
  unordered collection of distinct numbers), and `HashMap<String, usize>`
  by a function `String → Option ℕ`;
* in-place mutation is modelled by explicit state passing;
* the one place where the code observes the (nondeterministic) iteration
  order of a `HashSet` — `graph.neighbours_idx(i).unwrap().iter().next()`
  in the sparse short-circuit of `find_bipartite` — is modelled by an
  explicit choice oracle `pick : ℕ → Finset ℕ → Option ℕ` passed to
  `find_bipartite`; a valid oracle returns `none` exactly on the empty set
  and otherwise some member of the set, which is precisely the guarantee
  of `HashSet::iter().next()`.
-/

/-- `binomial` from src/combinatorics.rs: the value of n choose k,
computed by the multiplicative formula.  The Rust `while` loop is the
helper `binomialLoop` below. -/
def binomialLoop : ℕ → ℕ → ℕ → ℕ → ℕ × ℕ
  | _, 0, acc_up, acc_down => (acc_up, acc_down)
  | n, k + 1, acc_up, acc_down => binomialLoop (n - 1) k (acc_up * n) (acc_down * (k + 1))

/-- Returns the value of n choose k (src/combinatorics.rs, `binomial`). -/
def binomial (n k : ℕ) : ℕ :=
  if k > n then 0
  else
    let k' := min k (n - k)
    let p := binomialLoop n k' 1 1
    p.1 / p.2

/-- The undirected graph of src/graphs.rs.  Vertices are dense indices
`0..num_of_vertices`; `neighbours` is one set of neighbour indices per
vertex, `idx_to_name_map` the vector of names, `name_to_idx_map` the
name-to-index hash map. -/
structure Graph where
  num_of_vertices : ℕ
  num_of_edges : ℕ
  neighbours : List (Finset ℕ)
  idx_to_name_map : List String
  name_to_idx_map : String → Option ℕ

namespace Graph

/-- `get_num_of_vertices`. -/
def get_num_of_vertices (g : Graph) : ℕ := g.num_of_vertices

/-- `get_num_of_edges`. -/
def get_num_of_edges (g : Graph) : ℕ := g.num_of_edges

/-- `idx_to_name`: the name of the vertex with the given index, if any. -/
def idx_to_name (g : Graph) (idx : ℕ) : Option String := g.idx_to_name_map.get? idx

/-- `name_to_idx`: the index of the vertex with the given name, if any. -/
def name_to_idx (g : Graph) (name : String) : Option ℕ := g.name_to_idx_map name

/-- `Graph::empty`. -/
def empty : Graph :=
  { num_of_vertices := 0
    num_of_edges := 0
    neighbours := []
    idx_to_name_map := []
    name_to_idx_map := fun _ => none }

/-- Neighbour set of vertex `i`, as the Rust indexing `self.neighbours[i]`
(only ever evaluated at in-range indices in the source). -/
def nbrD (g : Graph) (i : ℕ) : Finset ℕ := g.neighbours.getD i ∅

/-- `Graph::complete`: the complete graph on `n` vertices named
`vertex_i`. -/
def complete (n : ℕ) : Graph :=
  { num_of_vertices := n
    num_of_edges := n * (n - 1) / 2
    neighbours := (List.range n).map (fun i => (Finset.range n).filter (fun j => i ≠ j))
    idx_to_name_map := (List.range n).map (fun i => "vertex_" ++ Nat.repr i)
    name_to_idx_map := fun nm => (List.range n).find? (fun i => "vertex_" ++ Nat.repr i = nm) }

/-- `add_vertex`: push a fresh vertex with the given name; no-op if the
name is already present. -/
def add_vertex (g : Graph) (name : String) : Graph :=
  match g.name_to_idx_map name with
  | some _ => g
  | none =>
    { num_of_vertices := g.num_of_vertices + 1
      num_of_edges := g.num_of_edges
      neighbours := g.neighbours ++ [∅]
      idx_to_name_map := g.idx_to_name_map ++ [name]
      name_to_idx_map := fun nm =>
        if nm = name then some g.num_of_vertices else g.name_to_idx_map nm }

/-- `remove_vertex`: remove the named vertex and its incident edges and
renumber every higher index down by one.  Returns the mutated graph and
the boolean result of the Rust method. -/
def remove_vertex (g : Graph) (name : String) : Graph × Bool :=
  match g.name_to_idx name with
  | none => (g, false)
  | some idx =>
    ({ num_of_vertices := g.num_of_vertices - 1
       num_of_edges := g.num_of_edges - (g.nbrD idx).card
       neighbours :=
         (g.neighbours.eraseIdx idx).map
           (fun s => (s.erase idx).image (fun nb => if idx < nb then nb - 1 else nb))
       idx_to_name_map := g.idx_to_name_map.eraseIdx idx
       name_to_idx_map := fun nm =>
         if nm = name then none
         else (g.name_to_idx_map nm).map (fun i => if idx < i then i - 1 else i) },
     true)

/-- `vertices`: the index range `0..num_of_vertices`. -/
def vertices (g : Graph) : List ℕ := List.range g.num_of_vertices

/-- `contains_vertex`. -/
def contains_vertex (g : Graph) (name : String) : Bool := (g.name_to_idx_map name).isSome

/-- `add_edge_idx`: add an undirected edge between two indices; returns
the mutated graph and whether the adding was successful. -/
def add_edge_idx (g : Graph) (fr tv : ℕ) : Graph × Bool :=
  if fr < g.num_of_vertices ∧ tv < g.num_of_vertices ∧ fr ≠ tv ∧ tv ∉ g.nbrD fr then
    ({ g with
       neighbours := ((g.neighbours.set tv (insert fr (g.nbrD tv))).set fr (insert tv (g.nbrD fr)))
       num_of_edges := g.num_of_edges + 1 },
     true)
  else (g, false)

/-- `add_edge`: add an undirected edge between two named vertices. -/
def add_edge (g : Graph) (fr tv : String) : Graph × Bool :=
  match g.name_to_idx fr, g.name_to_idx tv with
  | some fr_idx, some to_idx =>
    if fr ≠ tv ∧ to_idx ∉ g.nbrD fr_idx then
      ({ g with
         neighbours :=
           ((g.neighbours.set to_idx (insert fr_idx (g.nbrD to_idx))).set fr_idx
             (insert to_idx (g.nbrD fr_idx)))
         num_of_edges := g.num_of_edges + 1 },
       true)
    else (g, false)
  | _, _ => (g, false)

/-- `neighbours_idx`: the neighbour set of an index, or an error value
(`Err` in Rust, `none` here) if the index does not exist. -/
def neighbours_idx (g : Graph) (idx : ℕ) : Option (Finset ℕ) :=
  if g.num_of_vertices ≤ idx then none else some (g.nbrD idx)

/-- `highest_degree_vertices`: all vertices stably sorted by descending
degree (Rust `sort_by` is a stable sort, rendered here as Mathlib's stable
`insertionSort`), truncated to the first `s`. -/
def highest_degree_vertices (g : Graph) (s : ℕ) : List ℕ :=
  (g.vertices.insertionSort (fun a b => (g.nbrD b).card ≤ (g.nbrD a).card)).take s

/-- `lowest_degree_vertices`: ascending-degree counterpart. -/
def lowest_degree_vertices (g : Graph) (s : ℕ) : List ℕ :=
  (g.vertices.insertionSort (fun a b => (g.nbrD a).card ≤ (g.nbrD b).card)).take s

/-- The `for` loop of `reduce_to_dense`, over the precomputed list of
vertex names in ascending degree order. -/
def reduce_loop : List String → Graph → Graph × Bool
  | [], g => (g, false)
  | name :: rest, g =>
    if g.get_num_of_edges ^ 2 > 64 * g.get_num_of_vertices ^ 3 then (g, true)
    else reduce_loop rest (g.remove_vertex name).1

/-- `reduce_to_dense`: remove vertices in ascending degree order until
`edges² > 64·vertices³` holds; returns the mutated graph and whether the
predicate was reached. -/
def reduce_to_dense (g : Graph) : Graph × Bool :=
  reduce_loop ((g.lowest_degree_vertices g.num_of_vertices).map
    (fun idx => (g.idx_to_name idx).getD "")) g

end Graph

/-- The revolving-door generator state of src/combinatorics.rs
(`GraySubsets`).  The two Rust vectors `tau` (length `n + 2`) and `g`
(length `n + 1`) are modelled as functions `ℕ → ℕ`; every index the code
reads or writes lies inside the Rust bounds along every reachable state
(this is proved en passant by the closed-form state characterisation
below).  The field `i` is the scratch field of the Rust struct; it is
written before it is read in every call to `next`. -/
structure GraySubsets where
  n : ℕ
  t : ℕ
  i : ℕ
  tau : ℕ → ℕ
  g : ℕ → ℕ

namespace GraySubsets

/-- `GraySubsets::new`. -/
def new (n k : ℕ) : GraySubsets :=
  { n := n
    t := k
    i := 0
    tau := Function.update (fun x => x + 1) 0 (if k > 0 then k + 1 else n + 1)
    g := fun x => if x ≤ k then 1 else 0 }

/-- `GraySubsets::init`: the first subset, a bit-vector of length `n`. -/
def init (s : GraySubsets) : List ℕ :=
  (List.range s.n).map (fun x => if x < s.t then 1 else 0)

/-- The trailing adjustment block of `GraySubsets::next` (the final
`if self.t == self.i - 1 || self.t == 0` statement), returning the new
`t` and `tau`. -/
def adjust (i t : ℕ) (tau g : ℕ → ℕ) : ℕ × (ℕ → ℕ) :=
  if t = i - 1 ∨ t = 0 then (t + 1, tau)
  else
    let t2 := t - g (i - 1)
    let tau2 := Function.update tau (i - 1) (tau 0)
    let tau3 := Function.update tau2 0 (if t2 = 0 then i - 1 else t2 + 1)
    (t2, tau3)

/-- `GraySubsets::next`: one step of the iterator, returning the emitted
transition `(change_0, change_1)` and the successor state, or `none` when
the iterator is exhausted. -/
def next (s : GraySubsets) : Option ((ℕ × ℕ) × GraySubsets) :=
  if s.tau 0 < s.n + 1 then
    let i := s.tau 0
    let tau1 := Function.update s.tau 0 (s.tau i)
    let tau2 := Function.update tau1 i (i + 1)
    if s.g i = 1 then
      let idx := if s.t > 0 then s.t else i - 1
      let g2 := Function.update (Function.update s.g idx 1) i 0
      let p := adjust i (s.t + 1) tau2 g2
      some ((i - 1, idx - 1), { n := s.n, t := p.1, i := i, tau := p.2, g := g2 })
    else
      let idx := if s.t > 1 then s.t - 1 else i - 1
      let g2 := Function.update (Function.update s.g idx 0) i 1
      let p := adjust i (s.t - 1) tau2 g2
      some ((idx - 1, i - 1), { n := s.n, t := p.1, i := i, tau := p.2, g := g2 })
  else none

end GraySubsets

/-- Iterating the generator with explicit fuel, collecting the emitted
transitions in order.  The Rust iterator is driven until exhaustion; every
theorem below supplies enough fuel for the run to reach `none`. -/
def runGray : ℕ → GraySubsets → List (ℕ × ℕ)
  | 0, _ => []
  | fuel + 1, s =>
    match s.next with
    | none => []
    | some (tr, s2) => tr :: runGray fuel s2

/-- `count[j] += 1` over all `j` in the neighbour set `s`
(one `for_each` of src/bipartite.rs). -/
def addNbrs (ca : List ℕ) (s : Finset ℕ) : List ℕ :=
  ca.mapIdx (fun j c => if j ∈ s then c + 1 else c)

/-- `count[j] -= 1` over all `j` in the neighbour set `s`.  Along every
run considered below the invariant `count[j] ≥ 1` holds whenever `j ∈ s`,
so natural subtraction agrees with the Rust `usize` subtraction. -/
def subNbrs (ca : List ℕ) (s : Finset ℕ) : List ℕ :=
  ca.mapIdx (fun j c => if j ∈ s then c - 1 else c)

/-- `CountArray` of src/bipartite.rs. -/
structure CountArray where
  highest_degree_vec : List ℕ
  highest_degree_set : Finset ℕ
  highest_degree_count : ℕ
  subgraph_size : ℕ
  count_array : List ℕ

namespace CountArray

/-- `CountArray::new`: sum a +1 contribution to every neighbour of the
first `subgraph_size` pivot-pool vertices. -/
def new (highest_degree_vec : List ℕ) (subgraph_size : ℕ) (g : Graph) : CountArray :=
  { highest_degree_vec := highest_degree_vec
    highest_degree_set := highest_degree_vec.toFinset
    highest_degree_count := highest_degree_vec.length
    subgraph_size := subgraph_size
    count_array :=
      (List.range subgraph_size).foldl
        (fun ca i => addNbrs ca (g.nbrD (highest_degree_vec.getD i 0)))
        (List.replicate g.get_num_of_vertices 0) }

/-- `CountArray::two_bit_change`: decrement the neighbours of the removed
pool vertex, increment those of the added one. -/
def two_bit_change (b : CountArray) (g : Graph) (change_0 change_1 : ℕ) : CountArray :=
  { b with
    count_array :=
      addNbrs (subNbrs b.count_array (g.nbrD (b.highest_degree_vec.getD change_0 0)))
        (g.nbrD (b.highest_degree_vec.getD change_1 0)) }

/-- The filtered enumeration common to `is_ok` and `d_solution` in the
source: pairs `(idx, c)` of `count_array` with `c = subgraph_size` and
`idx` outside the pivot-pool set, in index order. -/
def d_candidates (b : CountArray) : List (ℕ × ℕ) :=
  b.count_array.enum.filter
    (fun p => p.2 == b.subgraph_size && !(decide (p.1 ∈ b.highest_degree_set)))

/-- `CountArray::is_ok`. -/
def is_ok (b : CountArray) : Bool :=
  decide (b.highest_degree_count ≤ (d_candidates b).length)

/-- `CountArray::d_solution`: the first `subgraph_size` qualifying
vertices, collected into a set. -/
def d_solution (b : CountArray) : Finset ℕ :=
  (((d_candidates b).map Prod.fst).take b.subgraph_size).toFinset

end CountArray

/-- The closure `c_solution` of `find_bipartite`: positions of the set
bits of the current subset, mapped through the pivot pool. -/
def c_solution (curr_subset : List ℕ) (highest_degree_vertices : List ℕ) : Finset ℕ :=
  ((curr_subset.enum.filter (fun p => p.2 == 1)).map
    (fun p => highest_degree_vertices.getD p.1 0)).toFinset

/-- The sparse short-circuit scan of `find_bipartite`: the first vertex
(in index order) with a non-empty neighbour set, paired with the element
of that set produced by the iteration-order oracle `pick`. -/
def sparse_scan (g : Graph) (pick : ℕ → Finset ℕ → Option ℕ) : Option (ℕ × ℕ) :=
  g.vertices.findSome? (fun i => (pick i (g.nbrD i)).map (fun j => (i, j)))

/-- The `for (change_0, change_1) in gray_generator` loop of
`find_bipartite`. -/
def search_loop (g : Graph) (hdv : List ℕ) :
    CountArray → List ℕ → List (ℕ × ℕ) → Finset ℕ × Finset ℕ
  | _, _, [] => (∅, ∅)
  | b, curr, (c0, c1) :: rest =>
    let b2 := b.two_bit_change g c0 c1
    let curr2 := (curr.set c0 0).set c1 1
    if b2.is_ok then (c_solution curr2 hdv, b2.d_solution)
    else search_loop g hdv b2 curr2 rest

/-- `find_bipartite` of src/bipartite.rs.  `pick` models the iteration
order of the `HashSet` consulted by the sparse short-circuit; a valid
oracle returns `none` exactly on `∅` and otherwise a member of the set.
The generator fuel `binomial highest_degree_size bipartite_size` is enough
for the run to reach exhaustion (the generator emits at most
`max 1 (C(s,k)) - 1` transitions). -/
def find_bipartite (g : Graph) (pick : ℕ → Finset ℕ → Option ℕ)
    (highest_degree_size bipartite_size : ℕ) : Finset ℕ × Finset ℕ :=
  let n := g.get_num_of_vertices
  let m := g.get_num_of_edges
  match (if 0 < m ∧ m ^ 2 < 64 * n ^ 3 then sparse_scan g pick else none) with
  | some (i, j) => ({i}, {j})
  | none =>
    let hdv := g.highest_degree_vertices highest_degree_size
    let gen := GraySubsets.new highest_degree_size bipartite_size
    let curr := gen.init
    let b := CountArray.new hdv bipartite_size g
    if b.is_ok then (c_solution curr hdv, b.d_solution)
    else search_loop g hdv b curr (runGray (binomial highest_degree_size bipartite_size) gen)

/-! ### Specification layer for the revolving-door generator

The generator is verified against the classical recursive revolving-door
ordering `R n k` of the `k`-subsets of `{1, …, n}` (each subset a sorted
list), together with a closed-form description `enc` of the generator
state at each subset and a closed-form successor function `succT`.
-/

/-- Length of the longest prefix `a, a+1, a+2, …` of consecutive values
starting at `j`.  `snugLen 1 S` is the length of the leading run
`1, 2, …` of a sorted subset `S`. -/
def snugLen : ℕ → List ℕ → ℕ
  | _, [] => 0
  | j, a :: rest => if a = j then snugLen (j + 1) rest + 1 else 0

/-- The generator's position counter `t` at subset `S`: the leading-run
length rounded up to the parity of `|S|`. -/
def tOf (S : List ℕ) : ℕ :=
  if snugLen 1 S % 2 = S.length % 2 then snugLen 1 S else snugLen 1 S + 1

/-- Closed-form successor of a sorted subset in the revolving-door order,
together with the emitted transition `(change_0, change_1)` (0-based bit
positions).  Only meaningful on valid non-final subsets. -/
def succT (S : List ℕ) : List ℕ × ℕ × ℕ :=
  let t := tOf S
  if t = 0 then
    ((S.getD 0 0 - 1) :: S.tail, (S.getD 0 0 - 1, S.getD 0 0 - 2))
  else
    let st := S.getD (t - 1) 0
    if t < S.length ∧ S.getD t 0 = st + 1 then
      (S.take (t - 1) ++ t :: st :: S.drop (t + 1), (st, t - 1))
    else if t = 1 then
      ((S.getD 0 0 + 1) :: S.tail, (S.getD 0 0 - 1, S.getD 0 0))
    else
      (S.take (t - 2) ++ st :: (st + 1) :: S.drop t, (t - 2, st))

/-- Successor subset only. -/
def succR (S : List ℕ) : List ℕ := (succT S).1

/-- The recursive revolving-door ordering of all `k`-subsets of
`{1, …, n}`:
`R n k = R (n-1) k ++ map (· ++ [n]) (reverse (R (n-1) (k-1)))`. -/
def R : ℕ → ℕ → List (List ℕ)
  | _, 0 => [[]]
  | 0, _ + 1 => []
  | n + 1, k + 1 => R n (k + 1) ++ (R n k).reverse.map (fun S => S ++ [n + 1])

/-- The `tau` deviations contributed by pairing up the listed positions:
each pair `(a, b)` makes `tau a = b + 1`. -/
def pairTau : List ℕ → (ℕ → ℕ)
  | a :: b :: rest => Function.update (pairTau rest) a (b + 1)
  | _ => fun x => x + 1

/-- Closed form of the generator's `tau` array at subset `S`. -/
def encTau (n : ℕ) (S : List ℕ) : ℕ → ℕ :=
  Function.update (pairTau (S.drop (tOf S))) 0
    (if 1 ≤ tOf S then S.getD (tOf S - 1) 0 + 1
     else match S with
          | [] => n + 1
          | s1 :: _ => s1)

/-- Closed form of the whole generator state at subset `S` (the scratch
field `i` holds the context-dependent value `iv`). -/
def enc (n : ℕ) (S : List ℕ) (iv : ℕ) : GraySubsets :=
  { n := n
    t := tOf S
    i := iv
    tau := encTau n S
    g := fun x => if x = 0 ∨ x ∈ S then 1 else 0 }

/-- Replaying a transition on a subset bit-vector: clear the removed bit,
set the added bit (exactly the update in `find_bipartite`). -/
def applyTrans (v : List ℕ) (tr : ℕ × ℕ) : List ℕ := (v.set tr.1 0).set tr.2 1

/-- All subsets visited when replaying a transition list from `v`
(including `v` itself). -/
def replay (v : List ℕ) (trs : List (ℕ × ℕ)) : List (List ℕ) := trs.scanl applyTrans v

/-- The length-`n` bit-vector of a subset of `{1, …, n}` (bit `x`
corresponds to element `x + 1`). -/
def bitvecOf (n : ℕ) (S : List ℕ) : List ℕ :=
  (List.range n).map (fun x => if x + 1 ∈ S then 1 else 0)

/-! ### Auxiliary predicates and concrete instances -/

/-- Well-formedness of an embedded graph: the adjacency vector has one
entry per vertex and neighbour indices are in range. -/
def Graph.WF (g : Graph) : Prop :=
  g.neighbours.length = g.num_of_vertices ∧
    ∀ s ∈ g.neighbours, ∀ j ∈ s, j < g.num_of_vertices

/-- A valid model of `HashSet::iter().next()`: `none` exactly on the empty
set, otherwise some member of the set. -/
def ValidPick (pick : ℕ → Finset ℕ → Option ℕ) : Prop :=
  ∀ i s, (pick i s = none ↔ s = ∅) ∧ ∀ j, pick i s = some j → j ∈ s

/-- A concrete iteration order: yield the smallest element first. -/
def pickLow : ℕ → Finset ℕ → Option ℕ :=
  fun _ s => if h : s.Nonempty then some (s.min' h) else none

/-- A concrete iteration order: yield the largest element first. -/
def pickHigh : ℕ → Finset ℕ → Option ℕ :=
  fun _ s => if h : s.Nonempty then some (s.max' h) else none

/-- A transition sequence is valid for pool size `s` starting from subset
`A` when each step removes a position that is in and adds a position that
is out, both below `s` (this is what the generator emits). -/
def ValidSeq (s : ℕ) : Finset ℕ → List (ℕ × ℕ) → Prop
  | _, [] => True
  | A, tr :: rest =>
    tr.1 ∈ A ∧ tr.2 ∉ A ∧ tr.2 < s ∧ ValidSeq s (insert tr.2 (A.erase tr.1)) rest

/-- The subset of pool positions reached after a transition sequence. -/
def subsetAfter (A : Finset ℕ) (trs : List (ℕ × ℕ)) : Finset ℕ :=
  trs.foldl (fun B tr => insert tr.2 (B.erase tr.1)) A

/-- Applying a transition sequence to a `CountArray` via
`two_bit_change`. -/
def applyCount (g : Graph) (b : CountArray) (trs : List (ℕ × ℕ)) : CountArray :=
  trs.foldl (fun b tr => b.two_bit_change g tr.1 tr.2) b

/-- Three vertices, a single edge added as `add_edge_idx 2 0`
(i.e. the one undirected edge `{0, 2}`, inserted "from 2 to 0"). -/
def oneEdgeGraph : Graph :=
  ((((Graph.empty.add_vertex "a").add_vertex "b").add_vertex "c").add_edge_idx 2 0).1

/-- Three vertices with edges `{0,1}` and `{0,2}`: vertex 0 has the
two-element neighbour set `{1, 2}`. -/
def forkGraph : Graph :=
  (((((Graph.empty.add_vertex "a").add_vertex "b").add_vertex "c").add_edge_idx 0
      1).1.add_edge_idx 0 2).1

/-- Graph states reachable from `Graph::empty` by the mutating calls
`add_vertex`, `add_edge`, `add_edge_idx` and `remove_vertex`. -/
inductive Reachable : Graph → Prop
  | empty : Reachable Graph.empty
  | add_vertex (g : Graph) (name : String) : Reachable g → Reachable (g.add_vertex name)
  | add_edge (g : Graph) (fr tv : String) : Reachable g → Reachable (g.add_edge fr tv).1
  | add_edge_idx (g : Graph) (fr tv : ℕ) : Reachable g → Reachable (g.add_edge_idx fr tv).1
  | remove_vertex (g : Graph) (name : String) : Reachable g → Reachable (g.remove_vertex name).1

/-- `oneEdgeGraph` after removing vertex "a" (exercises the re-indexing
path of `remove_vertex`). -/
def demoGraph : Graph := (oneEdgeGraph.remove_vertex "a").1

/-- Consistency of the two name maps: the name vector has one entry per
vertex and the hash map is its exact inverse. -/
def MapInv (g : Graph) : Prop :=
  g.idx_to_name_map.length = g.num_of_vertices ∧
    ∀ nm i, g.name_to_idx_map nm = some i ↔ g.idx_to_name_map.get? i = some nm

-- ===================================================================
-- Theorems
-- ===================================================================

theorem binomialLoop_eq (k : ℕ) : ∀ (n u d : ℕ),
    binomialLoop n k u d = (u * n.descFactorial k, d * k.factorial) := by
  induction k with
  | zero => intro n u d; simp [binomialLoop, Nat.descFactorial, Nat.factorial]
  | succ k ih =>
    intro n u d
    cases n with
    | zero =>
      simp [binomialLoop, ih, Nat.factorial_succ]
      ring
    | succ m =>
      simp only [binomialLoop, ih, Nat.succ_descFactorial_succ, Nat.factorial_succ]
      rw [Prod.mk.injEq]
      constructor
      · simp only [Nat.add_sub_cancel]; ring
      · ring

theorem binomial_eq_choose (n k : ℕ) (h : k ≤ n) : binomial n k = n.choose k := by
  have hmin : min k (n - k) ≤ n := le_trans (min_le_left _ _) h
  have hchoose : n.choose (min k (n - k)) = n.choose k := by
    rcases le_total k (n - k) with hle | hle
    · rw [min_eq_left hle]
    · rw [min_eq_right hle, ← Nat.choose_symm h]
  rw [binomial, if_neg (by omega)]
  simp only [binomialLoop_eq, one_mul]
  rw [← Nat.choose_eq_descFactorial_div_factorial, hchoose]

/-- C8: `binomial n k` is the exact binomial coefficient for `k ≤ n` and
`0` for `k > n`; in particular `binomial n 0 = 1`, `binomial n n = 1` and
`binomial 10 5 = 252`. -/
theorem C8_binomial_correct :
    (∀ n k : ℕ, binomial n k = if k ≤ n then n.choose k else 0) ∧
      (∀ n : ℕ, binomial n 0 = 1) ∧ (∀ n : ℕ, binomial n n = 1) ∧
      binomial 10 5 = 252 := by
  have main : ∀ n k : ℕ, binomial n k = if k ≤ n then n.choose k else 0 := by
    intro n k
    by_cases h : k ≤ n
    · rw [if_pos h, binomial_eq_choose n k h]
    · rw [if_neg h, binomial, if_pos (by omega)]
  refine ⟨main, ?_, ?_, ?_⟩
  · intro n; rw [main]; simp
  · intro n; rw [main]; simp
  · rw [main]; norm_num
    decide

theorem length_filter_map_eq {α β : Type} (f : α → β) (P : β → Bool) (l : List α) :
    ((l.map f).filter P).length = (l.filter (fun a => P (f a))).length := by
  induction l with
  | nil => rfl
  | cons a l ih =>
    by_cases h : P (f a) <;> simp [List.filter, h, ih]

theorem filter_range_card (n : ℕ) (p : ℕ → Prop) [DecidablePred p] :
    ((Finset.range n).filter p).card = ((List.range n).filter (fun i => decide (p i))).length := by
  rfl

theorem enum_eq_map_range (l : List ℕ) :
    l.enum = (List.range l.length).map (fun i => (i, l.getD i 0)) := by
  apply List.ext_getElem
  · simp
  · intro i h1 h2
    simp only [List.getElem_enum, List.getElem_map, List.getElem_range]
    have hi : i < l.length := by simpa using h1
    rw [List.getD_eq_getElem l 0 hi]

theorem enum_filter_length (l : List ℕ) (P : ℕ × ℕ → Bool) :
    (l.enum.filter P).length =
      ((List.range l.length).filter (fun i => P (i, l.getD i 0))).length := by
  rw [enum_eq_map_range l, length_filter_map_eq]

theorem addNbrs_length (ca : List ℕ) (s : Finset ℕ) : (addNbrs ca s).length = ca.length := by
  simp [addNbrs]

theorem subNbrs_length (ca : List ℕ) (s : Finset ℕ) : (subNbrs ca s).length = ca.length := by
  simp [subNbrs]

theorem foldl_addNbrs_length (f : ℕ → Finset ℕ) (l : List ℕ) :
    ∀ init : List ℕ, (l.foldl (fun ca i => addNbrs ca (f i)) init).length = init.length := by
  induction l with
  | nil => intro init; rfl
  | cons a l ih => intro init; rw [List.foldl_cons, ih, addNbrs_length]

theorem countArray_new_length (pool : List ℕ) (k : ℕ) (g : Graph) :
    (CountArray.new pool k g).count_array.length = g.num_of_vertices := by
  have h := foldl_addNbrs_length (fun i => g.nbrD (pool.getD i 0)) (List.range k)
    (List.replicate g.get_num_of_vertices 0)
  simpa [CountArray.new, Graph.get_num_of_vertices] using h

theorem applyCount_fields (g : Graph) (b : CountArray) (trs : List (ℕ × ℕ)) :
    (applyCount g b trs).highest_degree_vec = b.highest_degree_vec ∧
      (applyCount g b trs).highest_degree_set = b.highest_degree_set ∧
      (applyCount g b trs).highest_degree_count = b.highest_degree_count ∧
      (applyCount g b trs).subgraph_size = b.subgraph_size ∧
      (applyCount g b trs).count_array.length = b.count_array.length := by
  induction trs generalizing b with
  | nil => simp [applyCount]
  | cons tr rest ih =>
    have h := ih (b.two_bit_change g tr.1 tr.2)
    simp only [applyCount, List.foldl_cons] at h ⊢
    refine ⟨h.1.trans rfl, h.2.1.trans rfl, h.2.2.1.trans rfl, h.2.2.2.1.trans rfl, ?_⟩
    rw [h.2.2.2.2]
    simp [CountArray.two_bit_change, addNbrs_length, subNbrs_length]

theorem natBeq_eq_decide (a b : ℕ) : (a == b) = decide (a = b) := by
  by_cases h : a = b <;> simp [h]

theorem is_ok_iff_card (b : CountArray) :
    b.is_ok = true ↔
      b.highest_degree_count ≤
        ((Finset.range b.count_array.length).filter (fun v =>
          b.count_array.getD v 0 = b.subgraph_size ∧ v ∉ b.highest_degree_set)).card := by
  rw [CountArray.is_ok, decide_eq_true_eq, CountArray.d_candidates,
    enum_filter_length, filter_range_card]
  have hcong :
      (List.filter
        (fun i => (i, b.count_array.getD i 0).2 == b.subgraph_size &&
          !decide ((i, b.count_array.getD i 0).1 ∈ b.highest_degree_set))
        (List.range b.count_array.length)).length =
      (List.filter (fun i => decide (b.count_array.getD i 0 = b.subgraph_size ∧
          i ∉ b.highest_degree_set)) (List.range b.count_array.length)).length := by
    congr 1
    apply List.filter_congr
    intro i _
    by_cases hc : b.count_array.getD i 0 = b.subgraph_size <;>
      by_cases hm : i ∈ b.highest_degree_set <;> simp [hc, hm, natBeq_eq_decide]
  rw [hcong]

/-- C3: the threshold test `is_ok` is true iff at least
`pool.length` (the pivot pool's full size `s`, not the subset size `k`)
vertices outside the pivot pool have adjacency count equal to the subset
size `k`; stated for the counter built by `CountArray::new` after any
sequence of `two_bit_change` updates. -/
theorem C3_is_ok_threshold (g : Graph) (pool : List ℕ) (k : ℕ) (trs : List (ℕ × ℕ)) :
    (applyCount g (CountArray.new pool k g) trs).is_ok = true ↔
      pool.length ≤
        ((Finset.range g.num_of_vertices).filter (fun v =>
          (applyCount g (CountArray.new pool k g) trs).count_array.getD v 0 = k ∧
            v ∉ pool.toFinset)).card := by
  have hf := applyCount_fields g (CountArray.new pool k g) trs
  rw [is_ok_iff_card]
  rw [hf.2.1, hf.2.2.1, hf.2.2.2.1, hf.2.2.2.2, countArray_new_length]
  rfl

theorem addNbrs_getD (ca : List ℕ) (s : Finset ℕ) (v : ℕ) (hv : v < ca.length) :
    (addNbrs ca s).getD v 0 = if v ∈ s then ca.getD v 0 + 1 else ca.getD v 0 := by
  have h1 : v < (addNbrs ca s).length := by rw [addNbrs_length]; exact hv
  rw [List.getD_eq_getElem _ _ h1, List.getD_eq_getElem _ _ hv]
  simp [addNbrs]

theorem subNbrs_getD (ca : List ℕ) (s : Finset ℕ) (v : ℕ) (hv : v < ca.length) :
    (subNbrs ca s).getD v 0 = if v ∈ s then ca.getD v 0 - 1 else ca.getD v 0 := by
  have h1 : v < (subNbrs ca s).length := by rw [subNbrs_length]; exact hv
  rw [List.getD_eq_getElem _ _ h1, List.getD_eq_getElem _ _ hv]
  simp [subNbrs]

theorem two_bit_change_getD (b : CountArray) (g : Graph) (c0 c1 v : ℕ)
    (hv : v < b.count_array.length) :
    (b.two_bit_change g c0 c1).count_array.getD v 0 =
      (b.count_array.getD v 0 -
        (if v ∈ g.nbrD (b.highest_degree_vec.getD c0 0) then 1 else 0)) +
      (if v ∈ g.nbrD (b.highest_degree_vec.getD c1 0) then 1 else 0) := by
  have hlen : v < (subNbrs b.count_array (g.nbrD (b.highest_degree_vec.getD c0 0))).length := by
    rw [subNbrs_length]; exact hv
  show (addNbrs (subNbrs b.count_array _) _).getD v 0 = _
  rw [addNbrs_getD _ _ _ hlen, subNbrs_getD _ _ _ hv]
  split_ifs <;> omega

theorem foldl_addNbrs_getD (f : ℕ → Finset ℕ) (l : List ℕ) :
    ∀ (init : List ℕ) (v : ℕ), v < init.length →
      (l.foldl (fun ca i => addNbrs ca (f i)) init).getD v 0 =
        init.getD v 0 + (l.filter (fun i => decide (v ∈ f i))).length := by
  induction l with
  | nil => intro init v _; simp
  | cons a l ih =>
    intro init v hv
    rw [List.foldl_cons, ih (addNbrs init (f a)) v (by rw [addNbrs_length]; exact hv),
      addNbrs_getD _ _ _ hv]
    by_cases h : v ∈ f a
    · simp [h, List.filter]
      omega
    · simp [h, List.filter]

theorem countArray_new_getD (pool : List ℕ) (k : ℕ) (g : Graph) (v : ℕ)
    (hv : v < g.num_of_vertices) :
    (CountArray.new pool k g).count_array.getD v 0 =
      ((Finset.range k).filter (fun p => v ∈ g.nbrD (pool.getD p 0))).card := by
  show ((List.range k).foldl _ (List.replicate g.get_num_of_vertices 0)).getD v 0 = _
  rw [foldl_addNbrs_getD (fun i => g.nbrD (pool.getD i 0)) (List.range k)
      (List.replicate g.get_num_of_vertices 0) v (by simpa [Graph.get_num_of_vertices] using hv)]
  rw [filter_range_card]
  simp

theorem filter_swap_card (A : Finset ℕ) (P : ℕ → Prop) [DecidablePred P] (c0 c1 : ℕ)
    (h0 : c0 ∈ A) (h1 : c1 ∉ A) :
    ((insert c1 (A.erase c0)).filter P).card =
      (A.filter P).card - (if P c0 then 1 else 0) + (if P c1 then 1 else 0) := by
  rw [Finset.filter_insert, Finset.filter_erase]
  have hcard : ((Finset.filter P A).erase c0).card =
      (A.filter P).card - (if P c0 then 1 else 0) := by
    by_cases hp0 : P c0
    · rw [if_pos hp0, Finset.card_erase_of_mem (Finset.mem_filter.mpr ⟨h0, hp0⟩)]
    · rw [if_neg hp0, Finset.erase_eq_of_not_mem (fun hmem =>
        hp0 (Finset.mem_filter.mp hmem).2)]
      omega
  by_cases hp1 : P c1
  · rw [if_pos hp1, if_pos hp1]
    rw [Finset.card_insert_of_not_mem (fun hmem =>
      h1 (Finset.mem_of_mem_filter _ (Finset.mem_of_mem_erase hmem))), hcard]
  · rw [if_neg hp1, if_neg hp1, hcard]
    omega

theorem applyCount_invariant (g : Graph) (pool : List ℕ) :
    ∀ (trs : List (ℕ × ℕ)) (A : Finset ℕ) (b : CountArray),
      b.highest_degree_vec = pool →
      (∀ v, v < b.count_array.length →
        b.count_array.getD v 0 = (A.filter (fun p => v ∈ g.nbrD (pool.getD p 0))).card) →
      ValidSeq pool.length A trs →
      ∀ v, v < (applyCount g b trs).count_array.length →
        (applyCount g b trs).count_array.getD v 0 =
          ((subsetAfter A trs).filter (fun p => v ∈ g.nbrD (pool.getD p 0))).card := by
  intro trs
  induction trs with
  | nil =>
    intro A b _ hinv _ v hv
    exact hinv v hv
  | cons tr rest ih =>
    intro A b hvec hinv hvalid v hv
    obtain ⟨h0, h1, _, hrest⟩ := hvalid
    have hstep : ∀ w, w < (b.two_bit_change g tr.1 tr.2).count_array.length →
        (b.two_bit_change g tr.1 tr.2).count_array.getD w 0 =
          ((insert tr.2 (A.erase tr.1)).filter (fun p => w ∈ g.nbrD (pool.getD p 0))).card := by
      intro w hw
      have hwlen : w < b.count_array.length := by
        have : (b.two_bit_change g tr.1 tr.2).count_array.length = b.count_array.length := by
          simp [CountArray.two_bit_change, addNbrs_length, subNbrs_length]
        omega
      rw [two_bit_change_getD b g tr.1 tr.2 w hwlen, hinv w hwlen, hvec,
        filter_swap_card A _ tr.1 tr.2 h0 h1]
    have hvec2 : (b.two_bit_change g tr.1 tr.2).highest_degree_vec = pool := hvec
    exact ih (insert tr.2 (A.erase tr.1)) (b.two_bit_change g tr.1 tr.2) hvec2 hstep hrest v hv

/-- C2: after `CountArray` initialisation and any valid prefix of
generator transitions applied via `two_bit_change`, `count[v]` equals the
number of pivot-pool positions currently in the subset whose pool vertex
is adjacent to `v`.  (`Graph.WF` restricts to graphs on which the Rust
indexing `count_array[j]` cannot panic, the domain on which the embedding
is faithful.) -/
theorem C2_count_array_invariant (g : Graph) (pool : List ℕ) (k : ℕ) (trs : List (ℕ × ℕ))
    (_hwf : g.WF) (hvalid : ValidSeq pool.length (Finset.range k) trs) :
    ∀ v, v < g.num_of_vertices →
      (applyCount g (CountArray.new pool k g) trs).count_array.getD v 0 =
        ((subsetAfter (Finset.range k) trs).filter
          (fun p => v ∈ g.nbrD (pool.getD p 0))).card := by
  intro v hv
  have hlen := (applyCount_fields g (CountArray.new pool k g) trs).2.2.2.2
  rw [countArray_new_length] at hlen
  exact applyCount_invariant g pool trs (Finset.range k) (CountArray.new pool k g) rfl
    (fun w hw => countArray_new_getD pool k g w (by rwa [countArray_new_length] at hw))
    hvalid v (by omega)

theorem orderedInsert_of_forall {α : Type} (r : α → α → Prop) [DecidableRel r] (a : α)
    (l : List α) (h : ∀ b ∈ l, r a b) : l.orderedInsert r a = a :: l := by
  cases l with
  | nil => rfl
  | cons b l => simp [List.orderedInsert, h b (by simp)]

theorem insertionSort_of_forall {α : Type} (r : α → α → Prop) [DecidableRel r] :
    ∀ l : List α, (∀ a ∈ l, ∀ b ∈ l, r a b) → l.insertionSort r = l := by
  intro l
  induction l with
  | nil => intro _; rfl
  | cons x l ih =>
    intro h
    rw [List.insertionSort, ih (fun a ha b hb => h a (by simp [ha]) b (by simp [hb]))]
    exact orderedInsert_of_forall r x l (fun b hb => h x (by simp) b (by simp [hb]))

theorem complete_nbrD (n i : ℕ) (hi : i < n) :
    (Graph.complete n).nbrD i = (Finset.range n).filter (fun j => i ≠ j) := by
  show ((List.range n).map (fun i => (Finset.range n).filter (fun j => i ≠ j))).getD i ∅ = _
  rw [List.getD_eq_getElem _ _ (by simpa using hi)]
  simp

theorem complete_degree (n i : ℕ) (hi : i < n) :
    ((Graph.complete n).nbrD i).card = n - 1 := by
  rw [complete_nbrD n i hi]
  have : (Finset.range n).filter (fun j => i ≠ j) = (Finset.range n).erase i := by
    ext x
    simp [Finset.mem_erase, and_comm, eq_comm, ne_eq]
  rw [this, Finset.card_erase_of_mem (Finset.mem_range.mpr hi), Finset.card_range]

theorem complete_lowest_degree_vertices (n s : ℕ) :
    (Graph.complete n).lowest_degree_vertices s = (List.range n).take s := by
  rw [Graph.lowest_degree_vertices]
  congr 1
  apply insertionSort_of_forall
  intro a ha b hb
  rw [Graph.vertices] at ha hb
  rw [complete_degree n a (by simpa using ha), complete_degree n b (by simpa using hb)]

theorem complete_highest_degree_vertices (n s : ℕ) :
    (Graph.complete n).highest_degree_vertices s = (List.range n).take s := by
  rw [Graph.highest_degree_vertices]
  congr 1
  apply insertionSort_of_forall
  intro a ha b hb
  rw [Graph.vertices] at ha hb
  rw [complete_degree n a (by simpa using ha), complete_degree n b (by simpa using hb)]

theorem reduce_to_dense_of_dense (g : Graph) (hn : 0 < g.num_of_vertices)
    (hd : g.num_of_edges ^ 2 > 64 * g.num_of_vertices ^ 3) :
    g.reduce_to_dense = (g, true) := by
  rw [Graph.reduce_to_dense]
  have hlen : ((g.lowest_degree_vertices g.num_of_vertices).map
      (fun idx => (g.idx_to_name idx).getD "")).length = g.num_of_vertices := by
    rw [List.length_map, Graph.lowest_degree_vertices, List.length_take,
      List.length_insertionSort, Graph.vertices, List.length_range, min_self]
  cases hnames : (g.lowest_degree_vertices g.num_of_vertices).map
      (fun idx => (g.idx_to_name idx).getD "") with
  | nil => rw [hnames] at hlen; simp at hlen; omega
  | cons x rest =>
    rw [Graph.reduce_loop]
    rw [if_pos (by exact hd)]

/-- C7 counterexample: the complete graph on 259 vertices satisfies the
density predicate `m² > 64·n³`, yet `reduce_to_dense` returns `true`, not
`false` as the claim states (the graph is indeed left unchanged). -/
theorem C7_counterexample :
    (Graph.complete 259).num_of_edges ^ 2 > 64 * (Graph.complete 259).num_of_vertices ^ 3 ∧
      (Graph.complete 259).reduce_to_dense = (Graph.complete 259, true) ∧
      (Graph.complete 259).reduce_to_dense ≠ (Graph.complete 259, false) := by
  have hd : (Graph.complete 259).num_of_edges ^ 2 >
      64 * (Graph.complete 259).num_of_vertices ^ 3 := by decide
  have h := reduce_to_dense_of_dense (Graph.complete 259) (by decide) hd
  exact ⟨hd, h, by rw [h]; simp⟩

/-- C7 (amended): on every non-empty graph already satisfying
`m² > 64·n³`, `reduce_to_dense` returns `true` immediately without
removing any vertex. -/
theorem C7_reduce_to_dense_dense (g : Graph) (hn : 0 < g.num_of_vertices)
    (hd : g.num_of_edges ^ 2 > 64 * g.num_of_vertices ^ 3) :
    g.reduce_to_dense = (g, true) :=
  reduce_to_dense_of_dense g hn hd

theorem C7_witness :
    0 < (Graph.complete 259).num_of_vertices ∧
      (Graph.complete 259).num_of_edges ^ 2 > 64 * (Graph.complete 259).num_of_vertices ^ 3 ∧
      (Graph.complete 259).reduce_to_dense = (Graph.complete 259, true) :=
  ⟨by decide, by decide, C7_reduce_to_dense_dense (Graph.complete 259) (by decide) (by decide)⟩

theorem mapInv_empty : MapInv Graph.empty := by
  constructor
  · rfl
  · intro nm i
    simp [Graph.empty]

theorem mapInv_add_vertex (g : Graph) (name : String) (h : MapInv g) :
    MapInv (g.add_vertex name) := by
  obtain ⟨hlen, hinv⟩ := h
  cases hname : g.name_to_idx_map name with
  | some j =>
    simp only [Graph.add_vertex, hname]
    exact ⟨hlen, hinv⟩
  | none =>
    simp only [Graph.add_vertex, hname]
    constructor
    · simp [hlen]
    · intro nm i
      dsimp only
      by_cases hnm : nm = name
      · subst hnm
        simp only [if_pos rfl]
        constructor
        · intro hsome
          have hi : g.num_of_vertices = i := by
            simpa using hsome
          subst hi
          rw [← hlen, List.get?_concat_length]
        · intro hget
          rcases lt_trichotomy i g.idx_to_name_map.length with hlt | heq | hgt
          · rw [List.get?_append hlt] at hget
            have h2 : g.name_to_idx_map nm = some i := (hinv nm i).mpr hget
            rw [h2] at hname
            exact absurd hname (by simp)
          · rw [hlen] at heq
            rw [heq]
            simp
          · rw [List.get?_append_right (by omega)] at hget
            rw [List.get?_eq_none.mpr (by simp; omega)] at hget
            exact absurd hget (by simp)
      · rw [if_neg hnm, hinv nm i]
        constructor
        · intro hget
          have hi : i < g.idx_to_name_map.length := by
            by_contra hc
            rw [List.get?_eq_none.mpr (by omega)] at hget
            exact absurd hget (by simp)
          rw [List.get?_append hi]
          exact hget
        · intro hget
          rcases lt_or_ge i g.idx_to_name_map.length with hlt | hge
          · rw [List.get?_append hlt] at hget
            exact hget
          · rw [List.get?_append_right hge] at hget
            have h0 : i - g.idx_to_name_map.length = 0 := by
              by_contra hc
              rw [List.get?_eq_none.mpr (by simp; omega)] at hget
              exact absurd hget (by simp)
            rw [h0] at hget
            simp at hget
            exact absurd hget.symm hnm

theorem mapInv_add_edge_idx (g : Graph) (fr tv : ℕ) (h : MapInv g) :
    MapInv (g.add_edge_idx fr tv).1 := by
  rw [Graph.add_edge_idx]
  split_ifs with hc
  · exact ⟨h.1, h.2⟩
  · exact h

theorem mapInv_add_edge (g : Graph) (fr tv : String) (h : MapInv g) :
    MapInv (g.add_edge fr tv).1 := by
  rw [Graph.add_edge]
  cases hfr : g.name_to_idx fr with
  | none => exact h
  | some fr_idx =>
    cases htv : g.name_to_idx tv with
    | none => exact h
    | some to_idx =>
      dsimp only
      split_ifs with hc
      · exact ⟨h.1, h.2⟩
      · exact h

theorem mapInv_remove_vertex (g : Graph) (name : String) (h : MapInv g) :
    MapInv (g.remove_vertex name).1 := by
  obtain ⟨hlen, hinv⟩ := h
  cases hname : g.name_to_idx name with
  | none =>
    simp only [Graph.remove_vertex, hname]
    exact ⟨hlen, hinv⟩
  | some idx =>
    have hidx : g.idx_to_name_map.get? idx = some name := (hinv name idx).mp hname
    have hidxlt : idx < g.idx_to_name_map.length := by
      by_contra hc
      rw [List.get?_eq_none.mpr (by omega)] at hidx
      exact absurd hidx (by simp)
    simp only [Graph.remove_vertex, hname]
    constructor
    · dsimp only
      rw [List.length_eraseIdx, if_pos hidxlt]
      omega
    · intro nm i
      dsimp only
      rw [List.get?_eq_getElem?, List.getElem?_eraseIdx]
      by_cases hnm : nm = name
      · subst hnm
        rw [if_pos rfl]
        constructor
        · intro hsome
          exact absurd hsome (by simp)
        · intro hget
          exfalso
          split_ifs at hget with hlt
          · have h2 : g.name_to_idx_map nm = some i := (hinv nm i).mpr (by
              rw [List.get?_eq_getElem?]; exact hget)
            rw [Graph.name_to_idx] at hname
            rw [h2] at hname
            have : i = idx := by simpa using hname
            omega
          · have h2 : g.name_to_idx_map nm = some (i + 1) := (hinv nm (i + 1)).mpr (by
              rw [List.get?_eq_getElem?]; exact hget)
            rw [Graph.name_to_idx] at hname
            rw [h2] at hname
            have : i + 1 = idx := by simpa using hname
            omega
      · rw [if_neg hnm]
        constructor
        · intro hsome
          obtain ⟨i0, hi0, hfi⟩ := Option.map_eq_some'.mp hsome
          have hgot : g.idx_to_name_map.get? i0 = some nm := (hinv nm i0).mp hi0
          have hne : i0 ≠ idx := by
            intro hcc
            rw [hcc, hidx] at hgot
            exact hnm (by simpa using hgot.symm)
          by_cases hlt : i0 < idx
          · rw [if_neg (by omega)] at hfi
            subst hfi
            rw [if_pos hlt, ← List.get?_eq_getElem?]
            exact hgot
          · have hgt : idx < i0 := by omega
            rw [if_pos hgt] at hfi
            subst hfi
            rw [if_neg (by omega)]
            have : i0 - 1 + 1 = i0 := by omega
            rw [this, ← List.get?_eq_getElem?]
            exact hgot
        · intro hget
          split_ifs at hget with hlt
          · have h2 : g.name_to_idx_map nm = some i := (hinv nm i).mpr (by
              rw [List.get?_eq_getElem?]; exact hget)
            rw [h2]
            simp only [Option.map_some']
            rw [if_neg (by omega)]
          · have h2 : g.name_to_idx_map nm = some (i + 1) := (hinv nm (i + 1)).mpr (by
              rw [List.get?_eq_getElem?]; exact hget)
            rw [h2]
            simp only [Option.map_some']
            rw [if_pos (by omega)]
            simp

theorem mapInv_reachable (g : Graph) (h : Reachable g) : MapInv g := by
  induction h with
  | empty => exact mapInv_empty
  | add_vertex g name _ ih => exact mapInv_add_vertex g name ih
  | add_edge g fr tv _ ih => exact mapInv_add_edge g fr tv ih
  | add_edge_idx g fr tv _ ih => exact mapInv_add_edge_idx g fr tv ih
  | remove_vertex g name _ ih => exact mapInv_remove_vertex g name ih

/-- C9: on every graph state reachable by `add_vertex`, `add_edge`,
`add_edge_idx` and `remove_vertex` calls, `idx_to_name (name_to_idx name)`
returns the original name for every present name. -/
theorem C9_name_idx_roundtrip (g : Graph) (h : Reachable g) (name : String) (i : ℕ)
    (hname : g.name_to_idx name = some i) : g.idx_to_name i = some name := by
  have hinv := (mapInv_reachable g h).2
  rw [Graph.idx_to_name]
  exact (hinv name i).mp hname

theorem C9_witness :
    Reachable demoGraph ∧ demoGraph.name_to_idx "b" = some 0 ∧
      demoGraph.idx_to_name 0 = some "b" := by
  have hreach : Reachable demoGraph := by
    apply Reachable.remove_vertex
    apply Reachable.add_edge_idx
    apply Reachable.add_vertex
    apply Reachable.add_vertex
    apply Reachable.add_vertex
    exact Reachable.empty
  have hname : demoGraph.name_to_idx "b" = some 0 := by decide
  exact ⟨hreach, hname, C9_name_idx_roundtrip demoGraph hreach "b" 0 hname⟩

theorem C2_witness :
    (Graph.complete 3).WF ∧ ValidSeq 3 (Finset.range 1) [(0, 1), (1, 2)] ∧ 2 < 3 ∧
      (applyCount (Graph.complete 3) (CountArray.new [0, 1, 2] 1 (Graph.complete 3))
          [(0, 1), (1, 2)]).count_array.getD 2 0 =
        ((subsetAfter (Finset.range 1) [(0, 1), (1, 2)]).filter
          (fun p => 2 ∈ (Graph.complete 3).nbrD ([0, 1, 2].getD p 0))).card := by
  have hwf : (Graph.complete 3).WF := by
    constructor
    · decide
    · decide
  have hvalid : ValidSeq 3 (Finset.range 1) [(0, 1), (1, 2)] := by
    refine ⟨by decide, by decide, by decide, by decide, by decide, by decide, trivial⟩
  refine ⟨hwf, hvalid, by omega, ?_⟩

  have h := C2_count_array_invariant (Graph.complete 3) [0, 1, 2] 1 [(0, 1), (1, 2)] hwf
    (by simpa using hvalid)
  exact h 2 (by decide)

theorem runGray_new_zero (s fuel : ℕ) : runGray fuel (GraySubsets.new s 0) = [] := by
  cases fuel with
  | zero => rfl
  | succ f =>
    show (match (GraySubsets.new s 0).next with
      | none => []
      | some (tr, s2) => tr :: runGray f s2) = []
    have hnext : (GraySubsets.new s 0).next = none := by
      rw [GraySubsets.next]
      rw [if_neg]
      show ¬ Function.update (fun x => x + 1) 0 (if 0 > 0 then 0 + 1 else s + 1) 0 < s + 1
      rw [Function.update_same]
      simp
    rw [hnext]

theorem c_solution_zero (s : ℕ) (hdv : List ℕ) :
    c_solution (GraySubsets.new s 0).init hdv = ∅ := by
  have hinit : (GraySubsets.new s 0).init = (List.range s).map (fun _ => 0) := by
    rw [GraySubsets.init]
    show (List.range s).map (fun x => if x < 0 then 1 else 0) = _
    simp
  rw [c_solution, hinit]
  have h : (((List.range s).map (fun _ => (0 : ℕ))).enum.filter (fun p => p.2 == 1)) = [] := by
    rw [List.filter_eq_nil]
    intro p hp
    rw [List.mem_enum_iff_getElem?] at hp
    rw [List.getElem?_map] at hp
    have h0 : p.2 = 0 := by
      rcases Option.map_eq_some'.mp hp with ⟨a, _, ha⟩
      omega
    simp [h0]
  rw [h]
  rfl

theorem d_solution_new_zero (pool : List ℕ) (g : Graph) :
    (CountArray.new pool 0 g).d_solution = ∅ := rfl

theorem binomial_zero_right (s : ℕ) : binomial s 0 = 1 := by
  rw [binomial, if_neg (by omega)]
  have h0 : (0 : ℕ) ⊓ (s - 0) = 0 := by simp
  simp only [h0, binomialLoop_eq]
  simp [Nat.descFactorial, Nat.factorial]

/-- C10: with subset size `k = 0`, on any graph that does not take the
sparse short-circuit (no edges, or `m² ≥ 64·n³`) and any pool size
`s ≤ n`, `find_bipartite` returns two empty sets — whether through the
degenerate threshold success or through immediate generator exhaustion —
so `(∅, ∅)` does not distinguish "no witness found" from the `k = 0`
success. -/
theorem C10_find_bipartite_k_zero (g : Graph) (pick : ℕ → Finset ℕ → Option ℕ) (s : ℕ)
    (_hs : s ≤ g.num_of_vertices)
    (hm : g.num_of_edges = 0 ∨ 64 * g.num_of_vertices ^ 3 ≤ g.num_of_edges ^ 2) :
    find_bipartite g pick s 0 = (∅, ∅) := by
  have hcond : ¬(0 < g.get_num_of_edges ∧
      g.get_num_of_edges ^ 2 < 64 * g.get_num_of_vertices ^ 3) := by
    rw [Graph.get_num_of_edges, Graph.get_num_of_vertices]
    rcases hm with h | h
    · intro hc; omega
    · intro hc; omega
  rw [find_bipartite]
  rw [if_neg hcond]
  show (if (CountArray.new (g.highest_degree_vertices s) 0 g).is_ok = true then
      (c_solution (GraySubsets.new s 0).init (g.highest_degree_vertices s),
        (CountArray.new (g.highest_degree_vertices s) 0 g).d_solution)
    else search_loop g (g.highest_degree_vertices s)
      (CountArray.new (g.highest_degree_vertices s) 0 g) (GraySubsets.new s 0).init
      (runGray (binomial s 0) (GraySubsets.new s 0))) = (∅, ∅)
  split_ifs with hok
  · rw [c_solution_zero, d_solution_new_zero]
  · rw [binomial_zero_right, runGray_new_zero]
    rfl

theorem C10_witness :
    2 ≤ (Graph.complete 300).num_of_vertices ∧
      ((Graph.complete 300).num_of_edges = 0 ∨
        64 * (Graph.complete 300).num_of_vertices ^ 3 ≤ (Graph.complete 300).num_of_edges ^ 2) ∧
      find_bipartite (Graph.complete 300) pickLow 2 0 = (∅, ∅) :=
  ⟨by decide, Or.inr (by decide),
    C10_find_bipartite_k_zero (Graph.complete 300) pickLow 2 (by decide) (Or.inr (by decide))⟩

theorem findSome?_range'_scan {α : Type} (f : ℕ → Option α) (x : α) :
    ∀ (len start i : ℕ), start ≤ i → i < start + len →
      (∀ v, start ≤ v → v < i → f v = none) → f i = some x →
      (List.range' start len).findSome? f = some x := by
  intro len
  induction len with
  | zero => intro start i h1 h2 _ _; omega
  | succ len ih =>
    intro start i h1 h2 hbefore hat
    show (List.findSome? f (start :: List.range' (start + 1) len)) = some x
    rw [List.findSome?_cons]
    rcases Nat.eq_or_lt_of_le h1 with heq | hlt
    · subst heq
      rw [hat]
    · rw [hbefore start le_rfl hlt]
      exact ih (start + 1) i hlt (by omega) (fun v hv1 hv2 => hbefore v (by omega) hv2) hat

theorem findSome?_range_scan {α : Type} (f : ℕ → Option α) (x : α) (n i : ℕ) (hi : i < n)
    (hbefore : ∀ v, v < i → f v = none) (hat : f i = some x) :
    (List.range n).findSome? f = some x := by
  rw [List.range_eq_range']
  exact findSome?_range'_scan f x n 0 i (by omega) (by omega)
    (fun v _ hv2 => hbefore v hv2) hat

theorem validPick_pickLow : ValidPick pickLow := by
  intro i s
  constructor
  · rw [pickLow]
    split_ifs with h
    · constructor
      · intro hc; exact absurd hc (by simp)
      · intro hc; exact absurd (hc ▸ h) (by simp [Finset.not_nonempty_empty])
    · simp only [true_iff]
      exact Finset.not_nonempty_iff_eq_empty.mp h
  · intro j hj
    rw [pickLow] at hj
    split_ifs at hj with h
    have : s.min' h = j := by simpa using hj
    rw [← this]
    exact s.min'_mem h

theorem validPick_pickHigh : ValidPick pickHigh := by
  intro i s
  constructor
  · rw [pickHigh]
    split_ifs with h
    · constructor
      · intro hc; exact absurd hc (by simp)
      · intro hc; exact absurd (hc ▸ h) (by simp [Finset.not_nonempty_empty])
    · simp only [true_iff]
      exact Finset.not_nonempty_iff_eq_empty.mp h
  · intro j hj
    rw [pickHigh] at hj
    split_ifs at hj with h
    have : s.max' h = j := by simpa using hj
    rw [← this]
    exact s.max'_mem h

/-- C6 counterexample: a graph whose single edge was inserted as
`add_edge_idx 2 0` — i.e. "the edge (2 → 0)".  The sparse short-circuit
scans vertices in index order, so it finds the lower endpoint 0 first and
returns `({0}, {2})`, not `({i}, {j}) = ({2}, {0})` as the claim reads. -/
theorem C6_counterexample :
    oneEdgeGraph.num_of_edges = 1 ∧
      oneEdgeGraph.nbrD 2 = {0} ∧ oneEdgeGraph.nbrD 0 = {2} ∧
      oneEdgeGraph.num_of_edges ^ 2 < 64 * oneEdgeGraph.num_of_vertices ^ 3 ∧
      find_bipartite oneEdgeGraph pickLow 5 2 = ({0}, {2}) ∧
      find_bipartite oneEdgeGraph pickLow 5 2 ≠ ({2}, {0}) := by
  refine ⟨by decide, by decide, by decide, by decide, by decide, by decide⟩

/-- C6 (amended): on every graph whose only edge joins `i` and `j` with
`i < j`, `find_bipartite` returns `({i}, {j})` — the lower-indexed
endpoint first — regardless of the parameters `s` and `k` and of the
neighbour-set iteration order. -/
theorem C6_single_edge (g : Graph) (pick : ℕ → Finset ℕ → Option ℕ) (i j s k : ℕ)
    (hpick : ValidPick pick) (hij : i < j) (hjn : j < g.num_of_vertices)
    (hm : g.num_of_edges = 1)
    (hni : g.nbrD i = {j}) (hrest : ∀ v, v ≠ i → v ≠ j → g.nbrD v = ∅) :
    find_bipartite g pick s k = ({i}, {j}) := by
  have hscan : sparse_scan g pick = some (i, j) := by
    rw [sparse_scan, Graph.vertices]
    apply findSome?_range_scan _ _ _ i (show i < g.num_of_vertices by omega)
    · intro v hv
      rw [hrest v (by omega) (by omega), (hpick v ∅).1.mpr rfl]
      rfl
    · rcases hsome : pick i (g.nbrD i) with _ | j'
      · rw [hni] at hsome
        exact absurd ((hpick i {j}).1.mp hsome) (by simp)
      · have hj' : j' = j := by
          have := (hpick i (g.nbrD i)).2 j' hsome
          rw [hni] at this
          simpa using this
        rw [hj']
        rfl
  have hcond : (0 < g.get_num_of_edges ∧
      g.get_num_of_edges ^ 2 < 64 * g.get_num_of_vertices ^ 3) := by
    rw [Graph.get_num_of_edges, Graph.get_num_of_vertices, hm]
    have h3 : 1 ≤ g.num_of_vertices ^ 3 := Nat.one_le_pow 3 _ (by omega)
    constructor
    · omega
    · omega
  simp only [find_bipartite, if_pos hcond, hscan]

theorem oneEdgeGraph_rest : ∀ v, v ≠ 0 → v ≠ 2 → oneEdgeGraph.nbrD v = ∅ := by
  intro v h1 h2
  rcases Nat.lt_or_ge v 3 with hv | hv
  · interval_cases v
    · exact absurd rfl h1
    · decide
    · exact absurd rfl h2
  · rw [Graph.nbrD]
    apply List.getD_eq_default
    have hlen : oneEdgeGraph.neighbours.length = 3 := by decide
    omega

theorem C6_witness :
    ValidPick pickLow ∧ 0 < 2 ∧ 2 < oneEdgeGraph.num_of_vertices ∧
      oneEdgeGraph.num_of_edges = 1 ∧ oneEdgeGraph.nbrD 0 = {2} ∧
      find_bipartite oneEdgeGraph pickLow 7 3 = ({0}, {2}) :=
  ⟨validPick_pickLow, by omega, by decide, by decide, by decide,
    C6_single_edge oneEdgeGraph pickLow 0 2 7 3 validPick_pickLow (by omega) (by decide)
      (by decide) (by decide) oneEdgeGraph_rest⟩

/-- C5: the returned witness depends on the iteration order of the
`HashSet` consulted by the sparse short-circuit: with the same graph and
parameters, two valid iteration orders (both realisable by
`HashSet::iter().next()` under different hash seeds) yield different
results, so two runs need not return the same witness pair.  This
contradicts the spec's hard determinism requirement. -/
theorem C5_iteration_order_dependence :
    ValidPick pickLow ∧ ValidPick pickHigh ∧
      find_bipartite forkGraph pickLow 2 1 = ({0}, {1}) ∧
      find_bipartite forkGraph pickHigh 2 1 = ({0}, {2}) ∧
      find_bipartite forkGraph pickLow 2 1 ≠ find_bipartite forkGraph pickHigh 2 1 :=
  ⟨validPick_pickLow, validPick_pickHigh, by decide, by decide, by decide⟩

theorem hdv_complete300 : (Graph.complete 300).highest_degree_vertices 10 = List.range 10 := by
  rw [complete_highest_degree_vertices, List.take_range]
  norm_num

theorem count300_getD (v : ℕ) (hv : v < 300) :
    (CountArray.new (List.range 10) 3 (Graph.complete 300)).count_array.getD v 0 =
      if v < 3 then 2 else 3 := by
  rw [countArray_new_getD (List.range 10) 3 (Graph.complete 300) v hv]
  have hcong : (Finset.range 3).filter
      (fun p => v ∈ (Graph.complete 300).nbrD ((List.range 10).getD p 0)) =
      (Finset.range 3).filter (fun p => p ≠ v) := by
    apply Finset.filter_congr
    intro p hp
    have hp3 : p < 3 := Finset.mem_range.mp hp
    have hgd : (List.range 10).getD p 0 = p := by
      rw [List.getD_eq_getElem _ _ (by simpa using Nat.lt_of_lt_of_le hp3 (by norm_num))]
      simp
    rw [hgd, complete_nbrD 300 p (by omega)]
    simp only [Finset.mem_filter, Finset.mem_range]
    constructor
    · intro h; simp [h.2]
    · intro h
      have : p ≠ v := by simpa using h
      exact ⟨hv, this⟩
  rw [hcong, Finset.filter_ne']
  by_cases h3 : v < 3
  · rw [if_pos h3, Finset.card_erase_of_mem (Finset.mem_range.mpr h3), Finset.card_range]
  · rw [if_neg h3, Finset.erase_eq_of_not_mem (fun hc => h3 (Finset.mem_range.mp hc)),
      Finset.card_range]

theorem count300_list :
    (CountArray.new (List.range 10) 3 (Graph.complete 300)).count_array =
      (List.range 300).map (fun v => if v < 3 then 2 else 3) := by
  apply List.ext_getElem
  · rw [countArray_new_length, List.length_map, List.length_range]
    rfl
  · intro i h1 h2
    have hi : i < 300 := by
      rw [countArray_new_length] at h1
      exact h1
    rw [← List.getD_eq_getElem _ 0 h1, count300_getD i hi]
    simp

theorem is_ok_300 : (CountArray.new (List.range 10) 3 (Graph.complete 300)).is_ok = true := by
  rw [is_ok_iff_card]
  show 10 ≤ _
  have hlen : (CountArray.new (List.range 10) 3 (Graph.complete 300)).count_array.length = 300 :=
    countArray_new_length _ _ _
  rw [hlen]
  have hcong : (Finset.range 300).filter (fun v =>
        (CountArray.new (List.range 10) 3 (Graph.complete 300)).count_array.getD v 0 =
          (CountArray.new (List.range 10) 3 (Graph.complete 300)).subgraph_size ∧
          v ∉ (CountArray.new (List.range 10) 3 (Graph.complete 300)).highest_degree_set) =
      (Finset.range 300).filter (fun v => 10 ≤ v) := by
    apply Finset.filter_congr
    intro v hv
    have hv300 : v < 300 := Finset.mem_range.mp hv
    rw [count300_getD v hv300]
    show ((if v < 3 then 2 else 3) = 3 ∧ v ∉ (List.range 10).toFinset) ↔ _
    rw [List.mem_toFinset, List.mem_range]
    by_cases h3 : v < 3
    · rw [if_pos h3]
      constructor
      · rintro ⟨h2, _⟩
        exact absurd h2 (by omega)
      · intro h10
        exact absurd h10 (by omega)
    · rw [if_neg h3]
      constructor
      · rintro ⟨_, h10⟩
        omega
      · intro h10
        exact ⟨rfl, by omega⟩
  rw [hcong]
  have hico : (Finset.range 300).filter (fun v => 10 ≤ v) = Finset.Ico 10 300 := by
    ext v
    simp only [Finset.mem_filter, Finset.mem_range, Finset.mem_Ico]
    omega
  rw [hico, Nat.card_Ico]
  omega

theorem d_solution_300 :
    (CountArray.new (List.range 10) 3 (Graph.complete 300)).d_solution = {10, 11, 12} := by
  rw [CountArray.d_solution]
  have hdc : CountArray.d_candidates (CountArray.new (List.range 10) 3 (Graph.complete 300)) =
      ((List.range 300).filter (fun v => decide (10 ≤ v))).map
        (fun v => (v, if v < 3 then 2 else 3)) := by
    rw [CountArray.d_candidates, count300_list]
    rw [enum_eq_map_range]
    have hl : ((List.range 300).map (fun v => if v < 3 then 2 else 3)).length = 300 := by simp
    rw [hl]
    have hmc : (List.range 300).map (fun i =>
          (i, ((List.range 300).map (fun v => if v < 3 then 2 else 3)).getD i 0)) =
        (List.range 300).map (fun i => (i, if i < 3 then 2 else 3)) := by
      apply List.map_congr_left
      intro i hi
      have hi300 : i < 300 := List.mem_range.mp hi
      rw [List.getD_eq_getElem _ _ (by simpa using hi300)]
      simp
    rw [hmc, List.filter_map]
    refine congrArg _ ?_
    have hsub : (CountArray.new (List.range 10) 3 (Graph.complete 300)).subgraph_size = 3 := rfl
    have hset : (CountArray.new (List.range 10) 3 (Graph.complete 300)).highest_degree_set =
      (List.range 10).toFinset := rfl
    apply List.filter_congr
    intro i hi
    have hi300 : i < 300 := List.mem_range.mp hi
    simp only [Function.comp_apply, hsub, hset]
    by_cases h3 : i < 3
    · rw [if_pos h3]
      have hd : decide (10 ≤ i) = false := by
        simp
        omega
      rw [hd]
      rfl
    · rw [if_neg h3]
      by_cases h10 : i < 10
      · have hmem : i ∈ (List.range 10).toFinset := by
          rw [List.mem_toFinset, List.mem_range]; exact h10
        have hd : decide (10 ≤ i) = false := by
          simp
          omega
        simp [hmem, hd]
      · have hmem : i ∉ (List.range 10).toFinset := by
          rw [List.mem_toFinset, List.mem_range]; omega
        have hd : decide (10 ≤ i) = true := by
          simp
          omega
        simp [hmem, hd]
  rw [hdc, List.map_map]
  have hfst : (Prod.fst ∘ fun v => (v, if v < 3 then 2 else 3)) = id := by
    funext v; rfl
  rw [hfst, List.map_id]
  have hsplit : List.range 300 = List.range 13 ++ List.range' 13 287 := by
    rw [List.range_eq_range', List.range_eq_range']
    have := List.range'_append 0 13 287 1
    simpa using this.symm
  rw [hsplit, List.filter_append]
  have hfirst : (List.range 13).filter (fun v => decide (10 ≤ v)) = [10, 11, 12] := by decide
  rw [hfirst]
  have hsub : (CountArray.new (List.range 10) 3 (Graph.complete 300)).subgraph_size = 3 := rfl
  rw [hsub, List.take_append_of_le_length (by norm_num)]
  decide

/-- C4: `find_bipartite` on the complete graph on 300 vertices with
`pool_size = 10`, `subset_size = 3` returns exactly `({0,1,2}, {10,11,12})`
(for every neighbour-iteration oracle — the dense path never consults it);
the two sets are disjoint and every cross pair is an edge. -/
theorem C4_find_bipartite_complete300 (pick : ℕ → Finset ℕ → Option ℕ) :
    find_bipartite (Graph.complete 300) pick 10 3 = ({0, 1, 2}, {10, 11, 12}) ∧
      Disjoint ({0, 1, 2} : Finset ℕ) {10, 11, 12} ∧
      ∀ a ∈ ({0, 1, 2} : Finset ℕ), ∀ b ∈ ({10, 11, 12} : Finset ℕ),
        b ∈ (Graph.complete 300).nbrD a := by
  refine ⟨?_, by decide, by decide⟩
  have hcond : ¬(0 < (Graph.complete 300).get_num_of_edges ∧
      (Graph.complete 300).get_num_of_edges ^ 2 <
        64 * (Graph.complete 300).get_num_of_vertices ^ 3) := by decide
  rw [find_bipartite]
  rw [if_neg hcond]
  show (if (CountArray.new ((Graph.complete 300).highest_degree_vertices 10) 3
      (Graph.complete 300)).is_ok = true then
      (c_solution (GraySubsets.new 10 3).init ((Graph.complete 300).highest_degree_vertices 10),
        (CountArray.new ((Graph.complete 300).highest_degree_vertices 10) 3
          (Graph.complete 300)).d_solution)
    else search_loop (Graph.complete 300) ((Graph.complete 300).highest_degree_vertices 10)
      (CountArray.new ((Graph.complete 300).highest_degree_vertices 10) 3 (Graph.complete 300))
      (GraySubsets.new 10 3).init
      (runGray (binomial 10 3) (GraySubsets.new 10 3))) = ({0, 1, 2}, {10, 11, 12})
  rw [hdv_complete300]
  rw [if_pos is_ok_300]
  have hc : c_solution (GraySubsets.new 10 3).init (List.range 10) = {0, 1, 2} := by decide
  rw [hc, d_solution_300]

theorem C4_witness :
    find_bipartite (Graph.complete 300) pickLow 10 3 = ({0, 1, 2}, {10, 11, 12}) ∧
      (0 : ℕ) ∈ ({0, 1, 2} : Finset ℕ) ∧ (10 : ℕ) ∈ ({10, 11, 12} : Finset ℕ) ∧
      (10 : ℕ) ∈ (Graph.complete 300).nbrD 0 :=
  ⟨(C4_find_bipartite_complete300 pickLow).1, by decide, by decide,
    (C4_find_bipartite_complete300 pickLow).2.2 0 (by decide) 10 (by decide)⟩

theorem R_mem (n : ℕ) : ∀ (k : ℕ), ∀ S ∈ R n k,
    S.length = k ∧ List.Chain' (· < ·) S ∧ ∀ x ∈ S, 1 ≤ x ∧ x ≤ n := by
  induction n with
  | zero =>
    intro k S hS
    cases k with
    | zero =>
      rw [R] at hS
      simp at hS
      subst hS
      refine ⟨rfl, List.chain'_nil, by simp⟩
    | succ k =>
      rw [R] at hS
      simp at hS
  | succ n ih =>
    intro k S hS
    cases k with
    | zero =>
      rw [R] at hS
      simp at hS
      subst hS
      refine ⟨rfl, List.chain'_nil, by simp⟩
    | succ k =>
      rw [R] at hS
      rcases List.mem_append.mp hS with h1 | h2
      · obtain ⟨hlen, hchain, hbound⟩ := ih (k + 1) S h1
        exact ⟨hlen, hchain, fun x hx => ⟨(hbound x hx).1, le_trans (hbound x hx).2 (by omega)⟩⟩
      · obtain ⟨T, hT, hTS⟩ := List.mem_map.mp h2
        rw [List.mem_reverse] at hT
        obtain ⟨hlen, hchain, hbound⟩ := ih k T hT
        subst hTS
        refine ⟨by simp [hlen], ?_, ?_⟩
        · rw [List.chain'_append]
          refine ⟨hchain, List.chain'_singleton _, ?_⟩
          intro x hx y hy
          simp at hy
          subst hy
          have hxT : x ∈ T := List.mem_of_mem_getLast? hx
          have := (hbound x hxT).2
          omega
        · intro x hx
          rcases List.mem_append.mp hx with hx1 | hx2
          · have := hbound x hx1
            omega
          · simp at hx2
            omega

theorem R_length (n : ℕ) : ∀ k : ℕ, (R n k).length = Nat.choose n k := by
  induction n with
  | zero =>
    intro k
    cases k with
    | zero => rfl
    | succ k => rfl
  | succ n ih =>
    intro k
    cases k with
    | zero => rfl
    | succ k =>
      rw [R, List.length_append, List.length_map, List.length_reverse, ih, ih,
        Nat.choose_succ_succ]
      simp only [Nat.succ_eq_add_one]
      omega

theorem R_eq_singleton_of_self (n : ℕ) (hh : (R n n).head? = some (List.range' 1 n)) :
    R n n = [List.range' 1 n] := by
  have hlen : (R n n).length = 1 := by
    rw [R_length]
    simp
  cases hR : R n n with
  | nil => rw [hR] at hlen; simp at hlen
  | cons b m =>
    rw [hR] at hlen hh
    simp at hh hlen
    rw [hh, hlen]

theorem R_head (n : ℕ) : ∀ k : ℕ, k ≤ n → (R n k).head? = some (List.range' 1 k) := by
  induction n with
  | zero =>
    intro k hk
    interval_cases k
    rfl
  | succ n ih =>
    intro k hk
    cases k with
    | zero => rfl
    | succ k =>
      rw [R]
      cases hfst : R n (k + 1) with
      | cons a l =>
        have hk1n : k + 1 ≤ n := by
          by_contra hc
          have h0 : (R n (k + 1)).length = 0 := by
            rw [R_length, Nat.choose_eq_zero_of_lt (by omega)]
          rw [hfst] at h0
          simp at h0
        have hih := ih (k + 1) hk1n
        rw [hfst] at hih
        simp at hih
        rw [List.cons_append]
        simp [hih]
      | nil =>
        have hkn : k = n := by
          by_contra hc
          have hlt : k + 1 ≤ n := by omega
          have := ih (k + 1) hlt
          rw [hfst] at this
          simp at this
        subst hkn
        have hsingle : R k k = [List.range' 1 k] := R_eq_singleton_of_self k (ih k le_rfl)
        rw [hsingle]
        simp
        rw [List.range'_1_concat]
        simp [Nat.add_comm]

theorem R_getLast (n : ℕ) : ∀ k : ℕ, 1 ≤ k → k ≤ n →
    (R n k).getLast? = some (List.range' 1 (k - 1) ++ [n]) := by
  induction n with
  | zero => intro k h1 h2; omega
  | succ n ih =>
    intro k h1 h2
    cases k with
    | zero => omega
    | succ k =>
      rw [R]
      have hne : (R n k).reverse.map (fun S => S ++ [n + 1]) ≠ [] := by
        intro hc
        have h0 : (R n k).length = 0 := by
          have := congrArg List.length hc
          simpa using this
        rw [R_length] at h0
        have := Nat.choose_pos (show k ≤ n by omega)
        omega
      rw [List.getLast?_append]
      have hmap : ((R n k).reverse.map (fun S => S ++ [n + 1])).getLast? =
          ((R n k).reverse.getLast?).map (fun S => S ++ [n + 1]) := by
        rw [List.getLast?_map]
      rw [hmap, List.getLast?_reverse, R_head n k (by omega)]
      simp

theorem sorted_lt_last (S : List ℕ) (hchain : List.Chain' (· < ·) S) (h : S ≠ []) :
    ∀ x ∈ S.dropLast, x < S.getLast h := by
  have hp : List.Pairwise (· < ·) S := List.chain'_iff_pairwise.mp hchain
  have hdec := List.dropLast_append_getLast h
  rw [← hdec] at hp
  rw [List.pairwise_append] at hp
  intro x hx
  exact hp.2.2 x hx _ (by simp)

theorem mem_ne_last_mem_dropLast (S : List ℕ) (h : S ≠ []) (x : ℕ) (hx : x ∈ S)
    (hne : x ≠ S.getLast h) : x ∈ S.dropLast := by
  have hdec := List.dropLast_append_getLast h
  rw [← hdec] at hx
  rcases List.mem_append.mp hx with h1 | h2
  · exact h1
  · simp at h2
    exact absurd h2 hne

theorem R_nodup (n : ℕ) : ∀ k : ℕ, (R n k).Nodup := by
  induction n with
  | zero =>
    intro k
    cases k with
    | zero => simp [R]
    | succ k => simp [R]
  | succ n ih =>
    intro k
    cases k with
    | zero => simp [R]
    | succ k =>
      rw [R, List.nodup_append]
      refine ⟨ih (k + 1), ?_, ?_⟩
      · apply List.Nodup.map
        · intro a b hab
          simpa using hab
        · exact List.nodup_reverse.mpr (ih k)
      · intro S hS hS2
        obtain ⟨T, _, hT2⟩ := List.mem_map.mp hS2
        have hbound := (R_mem n (k + 1) S hS).2.2
        have hmem : (n + 1) ∈ S := by
          rw [← hT2]
          simp
        have := (hbound (n + 1) hmem).2
        omega

theorem R_complete (n : ℕ) : ∀ (k : ℕ) (S : List ℕ), S.length = k →
    List.Chain' (· < ·) S → (∀ x ∈ S, 1 ≤ x ∧ x ≤ n) → S ∈ R n k := by
  induction n with
  | zero =>
    intro k S hlen hchain hbound
    cases S with
    | nil =>
      subst hlen
      simp [R]
    | cons a T =>
      have := hbound a (by simp)
      omega
  | succ n ih =>
    intro k S hlen hchain hbound
    cases k with
    | zero =>
      rw [List.length_eq_zero] at hlen
      subst hlen
      simp [R]
    | succ k =>
      have hSne : S ≠ [] := by
        intro hc
        rw [hc] at hlen
        simp at hlen
      rw [R, List.mem_append]
      by_cases hlast : S.getLast hSne = n + 1
      · right
        have hdec : S = S.dropLast ++ [n + 1] := by
          conv_lhs => rw [← List.dropLast_append_getLast hSne]
          rw [hlast]
        rw [List.mem_map]
        refine ⟨S.dropLast, ?_, hdec.symm⟩
        rw [List.mem_reverse]
        apply ih k S.dropLast
        · have h1 : S.dropLast.length = S.length - 1 := by simp
          omega
        · exact List.Chain'.prefix hchain (List.dropLast_prefix S)
        · intro x hx
          have hxS : x ∈ S := List.dropLast_subset _ hx
          refine ⟨(hbound x hxS).1, ?_⟩
          have := sorted_lt_last S hchain hSne x hx
          omega
      · left
        apply ih (k + 1) S hlen hchain
        intro x hx
        refine ⟨(hbound x hx).1, ?_⟩
        have hxle := (hbound x hx).2
        rcases Nat.lt_or_ge x (n + 1) with h | h
        · omega
        · exfalso
          have hxeq : x = n + 1 := by omega
          have hxd : x ∈ S.dropLast := mem_ne_last_mem_dropLast S hSne x hx (by
            intro hc
            exact hlast (hc ▸ hxeq ▸ rfl))
          have := sorted_lt_last S hchain hSne x hxd
          have hlastS : S.getLast hSne ∈ S := List.getLast_mem hSne
          have := (hbound _ hlastS).2
          omega

theorem range'_split (s m n : ℕ) (h : m ≤ n) :
    List.range' s n = List.range' s m ++ List.range' (s + m) (n - m) := by
  have h2 := List.range'_append s m (n - m) 1
  simp only [one_mul] at h2
  conv_lhs => rw [show n = n - m + m from by omega]
  exact h2.symm

theorem take_range' (m s n : ℕ) (h : m ≤ n) : (List.range' s n).take m = List.range' s m := by
  rw [range'_split s m n h, List.take_append_of_le_length (by simp), List.take_of_length_le (by simp)]

theorem snugLen_range'_append (m : ℕ) : ∀ (j : ℕ) (l : List ℕ),
    snugLen j (List.range' j m ++ l) = m + snugLen (j + m) l := by
  induction m with
  | zero => intro j l; simp
  | succ m ih =>
    intro j l
    rw [List.range'_succ, List.cons_append]
    show (if j = j then snugLen (j + 1) (List.range' (j + 1) m ++ l) + 1 else 0) = _
    rw [if_pos rfl, ih (j + 1) l]
    have he : j + 1 + m = j + (m + 1) := by omega
    rw [he]
    omega

theorem snugLen_cons_ne (j a : ℕ) (rest : List ℕ) (h : a ≠ j) : snugLen j (a :: rest) = 0 := by
  simp [snugLen, h]

theorem snugLen_head_ne (j : ℕ) (l : List ℕ) (h : ∀ x ∈ l.head?, x ≠ j) : snugLen j l = 0 := by
  cases l with
  | nil => rfl
  | cons a rest => exact snugLen_cons_ne j a rest (h a rfl)

theorem chain'_head_le (l : List ℕ) (c : ℕ) (hchain : List.Chain' (· < ·) l)
    (hhead : ∀ x ∈ l.head?, c ≤ x) : ∀ x ∈ l, c ≤ x := by
  have hp : List.Pairwise (· < ·) l := List.chain'_iff_pairwise.mp hchain
  cases l with
  | nil => simp
  | cons a rest =>
    intro x hx
    have ha : c ≤ a := hhead a rfl
    rcases List.mem_cons.mp hx with h1 | h2
    · omega
    · have := (List.pairwise_cons.mp hp).1 x h2
      omega

theorem snugLen_cons_eq (j : ℕ) (rest : List ℕ) : snugLen j (j :: rest) = snugLen (j + 1) rest + 1 := by
  simp [snugLen]

theorem tOf_A (s1 : ℕ) (tail : List ℕ) (h1 : 2 ≤ s1) (hk : (s1 :: tail).length % 2 = 0) :
    tOf (s1 :: tail) = 0 := by
  rw [tOf, snugLen_cons_ne 1 s1 tail (by omega), if_pos (by omega)]

theorem tOf_D (s1 : ℕ) (tail : List ℕ) (h1 : 1 ≤ s1) (hk : (s1 :: tail).length % 2 = 1)
    (htail : ∀ x ∈ tail.head?, s1 + 2 ≤ x) : tOf (s1 :: tail) = 1 := by
  by_cases hs : s1 = 1
  · subst hs
    rw [tOf, snugLen_cons_eq, snugLen_head_ne 2 tail (fun x hx => by have := htail x hx; omega),
      if_pos (by omega)]
  · rw [tOf, snugLen_cons_ne 1 s1 tail (by omega), if_neg (by omega)]

theorem tOf_B (t st : ℕ) (rest : List ℕ) (ht : 1 ≤ t) (hst : t + 1 ≤ st)
    (hpar : t % 2 = ((t - 1) + (2 + rest.length)) % 2) :
    tOf (List.range' 1 (t - 1) ++ st :: (st + 1) :: rest) = t := by
  have hsnug : snugLen 1 (List.range' 1 (t - 1) ++ st :: (st + 1) :: rest) = t - 1 := by
    rw [snugLen_range'_append, snugLen_cons_ne _ _ _ (by omega)]
    omega
  rw [tOf, hsnug, if_neg]
  · omega
  · rw [List.length_append, List.length_range']
    simp only [List.length_cons]
    omega

theorem tOf_C (t st : ℕ) (rest : List ℕ) (ht : 1 ≤ t) (hst : t ≤ st)
    (hrest : ∀ x ∈ rest.head?, st + 2 ≤ x)
    (hpar : t % 2 = ((t - 1) + (1 + rest.length)) % 2) :
    tOf (List.range' 1 (t - 1) ++ st :: rest) = t := by
  rcases Nat.eq_or_lt_of_le hst with heq | hlt
  · subst heq
    have hsnug : snugLen 1 (List.range' 1 (t - 1) ++ t :: rest) = t := by
      rw [snugLen_range'_append]
      have h1 : 1 + (t - 1) = t := by omega
      rw [h1, snugLen_cons_eq, snugLen_head_ne (t + 1) rest
        (fun x hx => by have := hrest x hx; omega)]
      omega
    rw [tOf, hsnug, if_pos]
    rw [List.length_append, List.length_range']
    simp only [List.length_cons]
    omega
  · have hsnug : snugLen 1 (List.range' 1 (t - 1) ++ st :: rest) = t - 1 := by
      rw [snugLen_range'_append, snugLen_cons_ne _ _ _ (by omega)]
      omega
    rw [tOf, hsnug, if_neg]
    · omega
    · rw [List.length_append, List.length_range']
      simp only [List.length_cons]
      omega

theorem succT_A (s1 : ℕ) (tail : List ℕ) (h1 : 2 ≤ s1) (hk : (s1 :: tail).length % 2 = 0) :
    succT (s1 :: tail) = ((s1 - 1) :: tail, (s1 - 1, s1 - 2)) := by
  rw [succT]
  simp only [tOf_A s1 tail h1 hk, if_pos rfl]
  rfl

theorem succT_D (s1 : ℕ) (tail : List ℕ) (h1 : 1 ≤ s1) (hk : (s1 :: tail).length % 2 = 1)
    (htail : ∀ x ∈ tail.head?, s1 + 2 ≤ x) :
    succT (s1 :: tail) = ((s1 + 1) :: tail, (s1 - 1, s1)) := by
  rw [succT]
  simp only [tOf_D s1 tail h1 hk htail]
  rw [if_neg (by omega)]
  have hadj : ¬(1 < (s1 :: tail).length ∧ (s1 :: tail).getD 1 0 = (s1 :: tail).getD 0 0 + 1) := by
    intro ⟨hlt, hadj⟩
    cases tail with
    | nil => simp at hlt
    | cons b tail2 =>
      have hb := htail b rfl
      simp [List.getD] at hadj
      omega
  rw [if_neg hadj]
  simp [List.getD]

theorem succT_B (t st : ℕ) (rest : List ℕ) (ht : 1 ≤ t) (hst : t + 1 ≤ st)
    (hpar : t % 2 = ((t - 1) + (2 + rest.length)) % 2) :
    succT (List.range' 1 (t - 1) ++ st :: (st + 1) :: rest) =
      (List.range' 1 (t - 1) ++ t :: st :: rest, (st, t - 1)) := by
  have hlenpre : (List.range' 1 (t - 1)).length = t - 1 := by simp
  have hgd1 : (List.range' 1 (t - 1) ++ st :: (st + 1) :: rest).getD (t - 1) 0 = st := by
    rw [List.getD_append_right _ _ _ _ (by omega : (List.range' 1 (t-1)).length ≤ t - 1)]
    rw [hlenpre, Nat.sub_self]
    rfl
  have hgd2 : (List.range' 1 (t - 1) ++ st :: (st + 1) :: rest).getD t 0 = st + 1 := by
    rw [List.getD_append_right _ _ _ _ (by omega : (List.range' 1 (t-1)).length ≤ t)]
    rw [hlenpre]
    have h1 : t - (t - 1) = 1 := by omega
    rw [h1]
    rfl
  rw [succT]
  simp only [tOf_B t st rest ht hst hpar]
  rw [if_neg (by omega), hgd1, hgd2]
  rw [if_pos ⟨by
      rw [List.length_append, hlenpre]
      simp only [List.length_cons]
      omega, rfl⟩]
  have htake : (List.range' 1 (t - 1) ++ st :: (st + 1) :: rest).take (t - 1) =
      List.range' 1 (t - 1) := by
    rw [List.take_append_of_le_length (by simp), List.take_of_length_le (by simp)]
  have hdrop : (List.range' 1 (t - 1) ++ st :: (st + 1) :: rest).drop (t + 1) = rest := by
    rw [List.drop_append_eq_append_drop, List.drop_of_length_le (by omega), hlenpre]
    have h1 : t + 1 - (t - 1) = 2 := by omega
    rw [h1]
    rfl
  rw [htake, hdrop]

theorem succT_C (t st : ℕ) (rest : List ℕ) (ht : 2 ≤ t) (hst : t ≤ st)
    (hrest : ∀ x ∈ rest.head?, st + 2 ≤ x)
    (hpar : t % 2 = ((t - 1) + (1 + rest.length)) % 2) :
    succT (List.range' 1 (t - 1) ++ st :: rest) =
      (List.range' 1 (t - 2) ++ st :: (st + 1) :: rest, (t - 2, st)) := by
  have hlenpre : (List.range' 1 (t - 1)).length = t - 1 := by simp
  have hgd1 : (List.range' 1 (t - 1) ++ st :: rest).getD (t - 1) 0 = st := by
    rw [List.getD_append_right _ _ _ _ (by omega : (List.range' 1 (t-1)).length ≤ t - 1)]
    rw [hlenpre, Nat.sub_self]
    rfl
  have hadj : ¬(t < (List.range' 1 (t - 1) ++ st :: rest).length ∧
      (List.range' 1 (t - 1) ++ st :: rest).getD t 0 =
        (List.range' 1 (t - 1) ++ st :: rest).getD (t - 1) 0 + 1) := by
    intro ⟨hlt, hadj2⟩
    rw [hgd1] at hadj2
    rw [List.getD_append_right _ _ _ _ (by omega : (List.range' 1 (t-1)).length ≤ t)] at hadj2
    rw [hlenpre] at hadj2
    have h1 : t - (t - 1) = 1 := by omega
    rw [h1] at hadj2
    cases rest with
    | nil => simp [List.getD] at hadj2
    | cons r1 rest2 =>
      have := hrest r1 rfl
      simp [List.getD] at hadj2
      omega
  rw [succT]
  simp only [tOf_C t st rest (by omega) hst hrest hpar]
  rw [if_neg (by omega), if_neg hadj, if_neg (by omega : ¬ t = 1), hgd1]
  have htake2 : (List.range' 1 (t - 1) ++ st :: rest).take (t - 2) = List.range' 1 (t - 2) := by
    rw [List.take_append_of_le_length (by simp only [List.length_range']; omega),
      take_range' _ _ _ (by omega)]
  have hdrop2 : (List.range' 1 (t - 1) ++ st :: rest).drop t = rest := by
    rw [List.drop_append_eq_append_drop,
      List.drop_of_length_le (by simp only [List.length_range']; omega), hlenpre]
    have h1 : t - (t - 1) = 1 := by omega
    rw [h1]
    rfl
  rw [htake2, hdrop2]

theorem take_snug : ∀ (S : List ℕ) (j : ℕ), S.take (snugLen j S) = List.range' j (snugLen j S) := by
  intro S
  induction S with
  | nil => intro j; rfl
  | cons a rest ih =>
    intro j
    by_cases h : a = j
    · subst h
      rw [snugLen_cons_eq, List.take_succ_cons, ih (a + 1), List.range'_succ]
    · rw [snugLen_cons_ne j a rest h]
      rfl

theorem drop_snug_head : ∀ (S : List ℕ) (j x : ℕ),
    (S.drop (snugLen j S)).head? = some x → x ≠ j + snugLen j S := by
  intro S
  induction S with
  | nil => intro j x h; simp at h
  | cons a rest ih =>
    intro j x h
    by_cases ha : a = j
    · subst ha
      rw [snugLen_cons_eq] at h ⊢
      rw [List.drop_succ_cons] at h
      have := ih (a + 1) x h
      omega
    · rw [snugLen_cons_ne j a rest ha] at h ⊢
      simp at h
      subst h
      simpa using ha

theorem range'_one_getLast (l : ℕ) (hl : 1 ≤ l) : (List.range' 1 l).getLast? = some l := by
  have hsplit : List.range' 1 l = List.range' 1 (l - 1) ++ [1 + (l - 1)] := by
    rw [← List.range'_1_concat]
    congr 1
    omega
  rw [hsplit, List.getLast?_append]
  simp
  omega

theorem shape_cover (S : List ℕ) (hne : S ≠ []) (hchain : List.Chain' (· < ·) S)
    (hlow : ∀ x ∈ S, 1 ≤ x) :
    (∃ s1 tail, S = s1 :: tail ∧ 2 ≤ s1 ∧ S.length % 2 = 0) ∨
    (∃ s1 tail, S = s1 :: tail ∧ 1 ≤ s1 ∧ S.length % 2 = 1 ∧
       (∀ x ∈ tail.head?, s1 + 2 ≤ x)) ∨
    (∃ t st rest, S = List.range' 1 (t - 1) ++ st :: (st + 1) :: rest ∧ 1 ≤ t ∧ t + 1 ≤ st ∧
       t % 2 = ((t - 1) + (2 + rest.length)) % 2) ∨
    (∃ t st rest, S = List.range' 1 (t - 1) ++ st :: rest ∧ 2 ≤ t ∧ t ≤ st ∧
       (∀ x ∈ rest.head?, st + 2 ≤ x) ∧ t % 2 = ((t - 1) + (1 + rest.length)) % 2) := by
  have hdec : S = List.range' 1 (snugLen 1 S) ++ S.drop (snugLen 1 S) := by
    conv_lhs => rw [← List.take_append_drop (snugLen 1 S) S]
    rw [take_snug]
  have hdrophead : ∀ x, (S.drop (snugLen 1 S)).head? = some x → snugLen 1 S + 2 ≤ x := by
    intro x hx
    have hne1 : x ≠ 1 + snugLen 1 S := drop_snug_head S 1 x hx
    have hxmem : x ∈ S := List.drop_subset _ S (List.mem_of_mem_head? hx)
    have h1 : 1 ≤ x := hlow x hxmem
    rcases Nat.eq_zero_or_pos (snugLen 1 S) with h0 | hpos
    · omega
    · have hchain2 := hchain
      rw [hdec, List.chain'_append] at hchain2
      have := hchain2.2.2 (snugLen 1 S) (range'_one_getLast _ hpos) x hx
      omega
  have hlen : S.length = snugLen 1 S + (S.drop (snugLen 1 S)).length := by
    conv_lhs => rw [hdec]
    simp
  rcases Nat.eq_zero_or_pos (snugLen 1 S) with hl0 | hlpos
  · obtain ⟨s1, tail, hS⟩ := List.exists_cons_of_ne_nil hne
    have hs1 : 2 ≤ s1 := by
      have h1 : (1 : ℕ) ≤ s1 := hlow s1 (by rw [hS]; simp)
      have hne1 : s1 ≠ 1 := by
        intro hc
        rw [hS, hc, snugLen_cons_eq] at hl0
        omega
      omega
    rcases Nat.even_or_odd S.length with hev | hod
    · exact Or.inl ⟨s1, tail, hS, hs1, Nat.even_iff.mp hev⟩
    · have hodd := Nat.odd_iff.mp hod
      have hchaintail : List.Chain' (· < ·) (s1 :: tail) := by rw [← hS]; exact hchain
      cases htail : tail with
      | nil =>
        refine Or.inr (Or.inl ⟨s1, tail, hS, by omega, hodd, ?_⟩)
        rw [htail]
        simp
      | cons r1 t2 =>
        have hr1 : s1 < r1 := by
          rw [htail] at hchaintail
          exact (List.chain'_cons.mp hchaintail).1
        by_cases hadj : r1 = s1 + 1
        · refine Or.inr (Or.inr (Or.inl ⟨1, s1, t2, ?_, le_rfl, by omega, ?_⟩))
          · rw [hS, htail, hadj]
            rfl
          · have hlS : S.length = 2 + t2.length := by
              rw [hS, htail]
              simp
              omega
            omega
        · refine Or.inr (Or.inl ⟨s1, tail, hS, by omega, hodd, ?_⟩)
          intro x hx
          rw [htail] at hx
          simp at hx
          omega
  · by_cases hpar : snugLen 1 S % 2 = S.length % 2
    · -- t = snugLen: the run is "parked"; rules C (t ≥ 2) or D (t = 1)
      rcases Nat.eq_or_lt_of_le hlpos with h1 | h2
      · -- snugLen = 1: rule D with s1 = 1
        refine Or.inr (Or.inl ⟨1, S.drop 1, ?_, le_rfl, by omega, ?_⟩)
        · conv_lhs => rw [hdec]
          rw [← h1]
          rfl
        · intro x hx
          have hx2 : (S.drop (snugLen 1 S)).head? = some x := by
            rw [← h1]
            exact hx
          have := hdrophead x hx2
          omega
      · -- snugLen ≥ 2: rule C with t = st = snugLen
        refine Or.inr (Or.inr (Or.inr ⟨snugLen 1 S, snugLen 1 S, S.drop (snugLen 1 S), ?_,
          by omega, le_rfl, hdrophead, by omega⟩))
        conv_lhs => rw [hdec]
        have hr : List.range' 1 (snugLen 1 S) =
            List.range' 1 (snugLen 1 S - 1) ++ [snugLen 1 S] := by
          conv_lhs => rw [show snugLen 1 S = (snugLen 1 S - 1) + 1 from by omega]
          rw [List.range'_1_concat]
          congr 2
          omega
        rw [hr, List.append_assoc]
        rfl
    · -- t = snugLen + 1: rules B or C depending on adjacency
      cases hdrop : S.drop (snugLen 1 S) with
      | nil =>
        exfalso
        rw [hdrop] at hlen
        simp at hlen
        omega
      | cons st rest1 =>
        have hst : snugLen 1 S + 2 ≤ st := hdrophead st (by rw [hdrop]; rfl)
        have hSd : S = List.range' 1 (snugLen 1 S) ++ st :: rest1 := by
          conv_lhs => rw [hdec]
          rw [hdrop]
        have hchainrest : List.Chain' (· < ·) (st :: rest1) := by
          have := hchain
          rw [hSd, List.chain'_append] at this
          exact this.2.1
        cases hrest1 : rest1 with
        | nil =>
          refine Or.inr (Or.inr (Or.inr ⟨snugLen 1 S + 1, st, [], ?_, by omega, by omega,
            by simp, ?_⟩))
          · have h11 : snugLen 1 S + 1 - 1 = snugLen 1 S := by omega
            rw [h11]
            conv_lhs => rw [hSd, hrest1]
          · simp only [List.length_nil]
            omega
        | cons r1 rest2 =>
          have hr1 : st < r1 := by
            rw [hrest1] at hchainrest
            exact (List.chain'_cons.mp hchainrest).1
          by_cases hadj : r1 = st + 1
          · have hld : (List.drop (snugLen 1 S) S).length = 2 + rest2.length := by
              rw [hdrop, hrest1]
              simp only [List.length_cons]
              omega
            refine Or.inr (Or.inr (Or.inl ⟨snugLen 1 S + 1, st, rest2, ?_, by omega, by omega,
              by omega⟩))
            have h11 : snugLen 1 S + 1 - 1 = snugLen 1 S := by omega
            rw [h11]
            conv_lhs => rw [hSd, hrest1, hadj]
          · have hchain3 : List.Chain' (· < ·) (r1 :: rest2) := by
              rw [hrest1] at hchainrest
              exact (List.chain'_cons.mp hchainrest).2
            have hld : (List.drop (snugLen 1 S) S).length = 2 + rest2.length := by
              rw [hdrop, hrest1]
              simp only [List.length_cons]
              omega
            refine Or.inr (Or.inr (Or.inr ⟨snugLen 1 S + 1, st, r1 :: rest2, ?_, by omega,
              by omega, ?_, ?_⟩))
            · have h11 : snugLen 1 S + 1 - 1 = snugLen 1 S := by omega
              rw [h11]
              conv_lhs => rw [hSd, hrest1]
            · intro x hx
              simp at hx
              subst hx
              omega
            · simp only [List.length_cons]
              omega

theorem succR_star (b : List ℕ) (m : ℕ) (hne : b ≠ []) (hchain : List.Chain' (· < ·) b)
    (hlow : ∀ x ∈ b, 1 ≤ x) (hmax : ∀ x ∈ b, x < m) :
    succR (succR b ++ [m]) = b ++ [m] := by
  rcases shape_cover b hne hchain hlow with ⟨s1, tail, hS, hs1, hpar⟩ |
    ⟨s1, tail, hS, hs1, hpar, htail⟩ |
    ⟨t, st, rest, hS, ht, hst, hpar⟩ |
    ⟨t, st, rest, hS, ht, hst, hrest, hpar⟩
  · -- rule A, undone by rule D on the extended list
    have hkA : (s1 :: tail).length % 2 = 0 := hS ▸ hpar
    have hkD : ((s1 - 1) :: (tail ++ [m])).length % 2 = 1 := by
      have h := hkA
      simp only [List.length_cons, List.length_append, List.length_nil] at h ⊢
      omega
    have htD : ∀ x ∈ (tail ++ [m]).head?, (s1 - 1) + 2 ≤ x := by
      intro x hx
      cases tail with
      | nil =>
        simp at hx
        have := hmax s1 (by rw [hS]; simp)
        omega
      | cons r tl =>
        simp at hx
        have hch2 : List.Chain' (· < ·) (s1 :: r :: tl) := hS ▸ hchain
        have hr : s1 < r := (List.chain'_cons.mp hch2).1
        omega
    simp only [succR]
    rw [hS, succT_A s1 tail hs1 hkA]
    dsimp only
    simp only [List.cons_append]
    rw [succT_D (s1 - 1) (tail ++ [m]) (by omega) hkD htD]
    dsimp only
    rw [show s1 - 1 + 1 = s1 from by omega]
  · -- rule D, undone by rule A on the extended list
    have hkD : (s1 :: tail).length % 2 = 1 := hS ▸ hpar
    have hkA : ((s1 + 1) :: (tail ++ [m])).length % 2 = 0 := by
      have h := hkD
      simp only [List.length_cons, List.length_append, List.length_nil] at h ⊢
      omega
    simp only [succR]
    rw [hS, succT_D s1 tail hs1 hkD htail]
    dsimp only
    simp only [List.cons_append]
    rw [succT_A (s1 + 1) (tail ++ [m]) (by omega) hkA]
    dsimp only
    rw [show s1 + 1 - 1 = s1 from by omega]
  · -- rule B, undone by rule C on the extended list
    have hchsuf : List.Chain' (· < ·) (st :: (st + 1) :: rest) := by
      have h := hchain
      rw [hS, List.chain'_append] at h
      exact h.2.1
    have hrest' : ∀ x ∈ (rest ++ [m]).head?, st + 2 ≤ x := by
      intro x hx
      cases rest with
      | nil =>
        simp at hx
        have := hmax (st + 1) (by rw [hS]; simp)
        omega
      | cons r tl =>
        simp at hx
        have hr : st + 1 < r := (List.chain'_cons.mp (List.chain'_cons.mp hchsuf).2).1
        omega
    have hparC : (t + 1) % 2 = ((t + 1 - 1) + (1 + (rest ++ [m]).length)) % 2 := by
      simp only [List.length_append, List.length_cons, List.length_nil]
      omega
    simp only [succR]
    rw [hS, succT_B t st rest ht hst hpar]
    dsimp only
    have hcat : List.range' 1 t = List.range' 1 (t - 1) ++ [t] := by
      conv_lhs => rw [show t = (t - 1) + 1 from by omega]
      rw [List.range'_1_concat, show 1 + (t - 1) = t from by omega]
    have hform : (List.range' 1 (t - 1) ++ t :: st :: rest) ++ [m] =
        List.range' 1 (t + 1 - 1) ++ st :: (rest ++ [m]) := by
      rw [show t + 1 - 1 = t from rfl, hcat]
      simp [List.append_assoc]
    rw [hform, succT_C (t + 1) st (rest ++ [m]) (by omega) (by omega) hrest' hparC]
    dsimp only
    rw [show t + 1 - 2 = t - 1 from by omega]
    simp [List.append_assoc]
  · -- rule C, undone by rule B on the extended list
    have hparB : (t - 1) % 2 = ((t - 1 - 1) + (2 + (rest ++ [m]).length)) % 2 := by
      simp only [List.length_append, List.length_cons, List.length_nil]
      omega
    simp only [succR]
    rw [hS, succT_C t st rest ht hst hrest hpar]
    dsimp only
    have hform : (List.range' 1 (t - 2) ++ st :: (st + 1) :: rest) ++ [m] =
        List.range' 1 (t - 1 - 1) ++ st :: (st + 1) :: (rest ++ [m]) := by
      rw [show t - 1 - 1 = t - 2 from by omega]
      simp [List.append_assoc]
    rw [hform, succT_B (t - 1) st (rest ++ [m]) (by omega) (by omega) hparB]
    dsimp only
    have hcat : List.range' 1 (t - 1) = List.range' 1 (t - 2) ++ [t - 1] := by
      conv_lhs => rw [show t - 1 = (t - 2) + 1 from by omega]
      rw [List.range'_1_concat, show 1 + (t - 2) = t - 1 from by omega]
    rw [show t - 1 - 1 = t - 2 from by omega, hcat]
    simp [List.append_assoc]

theorem chain'_imp_mem {α : Type} {S Q : α → α → Prop} {L : List α}
    (h : List.Chain' S L) (himp : ∀ a ∈ L, ∀ b ∈ L, S a b → Q a b) :
    List.Chain' Q L := by
  rw [List.chain'_iff_get] at h ⊢
  intro i hi
  exact himp _ (List.get_mem L _ _) _ (List.get_mem L _ _) (h i hi)

theorem R_eq_nil (n k : ℕ) (h : n < k) : R n k = [] := by
  have hl := R_length n k
  rw [Nat.choose_eq_zero_of_lt h] at hl
  exact List.length_eq_zero.mp hl

theorem succR_single (n : ℕ) (hn : 1 ≤ n) : succR [n] = [n + 1] := by
  have hkD : (n :: ([] : List ℕ)).length % 2 = 1 := by simp
  have htD : ∀ x ∈ ([] : List ℕ).head?, n + 2 ≤ x := by simp
  rw [succR, show ([n] : List ℕ) = n :: [] from rfl, succT_D n [] hn hkD htD]

theorem succR_last (n k : ℕ) (hk1 : 1 ≤ k) (hk : k + 1 ≤ n) :
    succR (List.range' 1 k ++ [n]) = (List.range' 1 (k - 1) ++ [n]) ++ [n + 1] := by
  cases k with
  | zero => omega
  | succ k =>
    have hpar : (k + 2) % 2 = ((k + 2 - 1) + (1 + ([] : List ℕ).length)) % 2 := by
      simp
      omega
    have hrest : ∀ x ∈ ([] : List ℕ).head?, n + 2 ≤ x := by simp
    have hform : List.range' 1 (k + 1) ++ [n] =
        List.range' 1 (k + 2 - 1) ++ n :: [] := rfl
    rw [succR, hform, succT_C (k + 2) n [] (by omega) (by omega) hrest hpar]
    dsimp only
    rw [show k + 2 - 2 = k + 1 - 1 from by omega]
    simp

theorem R_chain (n : ℕ) : ∀ k : ℕ, List.Chain' (fun a b => succR a = b) (R n k) := by
  induction n with
  | zero =>
    intro k
    cases k with
    | zero => simp [R]
    | succ k => simp [R]
  | succ n ih =>
    intro k
    cases k with
    | zero => simp [R]
    | succ k =>
      rw [R, List.chain'_append]
      refine ⟨ih (k + 1), ?_, ?_⟩
      · rw [List.chain'_map, List.chain'_reverse]
        cases k with
        | zero =>
          have hR0 : R n 0 = [[]] := by cases n <;> rfl
          rw [hR0]
          simp
        | succ k' =>
          apply chain'_imp_mem (ih (k' + 1))
          intro a ha b hb hab
          have hm := R_mem n (k' + 1) a ha
          have hane : a ≠ [] := by
            intro hc
            rw [hc] at hm
            simp at hm
          show succR (b ++ [n + 1]) = a ++ [n + 1]
          rw [← hab]
          exact succR_star a (n + 1) hane hm.2.1 (fun x hx => (hm.2.2 x hx).1)
            (fun x hx => by have := (hm.2.2 x hx).2; omega)
      · intro x hx y hy
        by_cases hkn : k + 1 ≤ n
        · rw [R_getLast n (k + 1) (by omega) hkn] at hx
          simp at hx
          subst hx
          rw [List.head?_map, List.head?_reverse] at hy
          cases k with
          | zero =>
            have hR0 : R n 0 = [[]] := by cases n <;> rfl
            rw [hR0] at hy
            simp at hy
            subst hy
            simpa using succR_single n (by omega)
          | succ k' =>
            rw [R_getLast n (k' + 1) (by omega) (by omega)] at hy
            simp at hy
            subst hy
            have h := succR_last n (k' + 1) (by omega) hkn
            simpa using h
        · rw [R_eq_nil n (k + 1) (by omega)] at hx
          simp at hx

theorem pairTau_not_mem : ∀ (l : List ℕ), ∀ x ∉ l, pairTau l x = x + 1
  | [] => by intro x h; rfl
  | [_] => by intro x h; rfl
  | a :: b :: rest => by
    intro x h
    simp only [List.mem_cons, not_or] at h
    rw [pairTau, Function.update_noteq h.1]
    exact pairTau_not_mem rest x h.2.2

theorem pairTau_head (a b : ℕ) (rest : List ℕ) : pairTau (a :: b :: rest) a = b + 1 := by
  rw [pairTau, Function.update_same]

theorem pairTau_cons_ne (a b x : ℕ) (rest : List ℕ) (h : x ≠ a) :
    pairTau (a :: b :: rest) x = pairTau rest x := by
  rw [pairTau, Function.update_noteq h]

theorem step_D (n iv s1 : ℕ) (tail : List ℕ) (hs1 : 1 ≤ s1)
    (hk : (s1 :: tail).length % 2 = 1)
    (htail : ∀ x ∈ tail.head?, s1 + 2 ≤ x)
    (hch : List.Chain' (· < ·) (s1 :: tail))
    (hguard : s1 + 1 ≤ n) :
    (enc n (s1 :: tail) iv).next =
      some ((s1 - 1, s1), enc n ((s1 + 1) :: tail) (s1 + 1)) := by
  have hchtail : List.Chain' (· < ·) tail := (List.chain'_cons'.mp hch).2
  have htall : ∀ x ∈ tail, s1 + 2 ≤ x := chain'_head_le tail (s1 + 2) hchtail htail
  have hnm1 : (s1 + 1) ∉ tail := fun hc => by have := htall _ hc; omega
  have hnm0 : s1 ∉ tail := fun hc => by have := htall _ hc; omega
  have htOf : tOf (s1 :: tail) = 1 := tOf_D s1 tail hs1 hk htail
  have htOf' : tOf ((s1 + 1) :: tail) = 1 := by
    rw [tOf, snugLen_cons_ne 1 (s1 + 1) tail (by omega), if_neg]
    simp only [List.length_cons] at hk ⊢
    omega
  have htau0 : encTau n (s1 :: tail) 0 = s1 + 1 := by
    rw [encTau, Function.update_same, htOf]
    rfl
  have htaui : encTau n (s1 :: tail) (s1 + 1) = s1 + 2 := by
    rw [encTau, Function.update_noteq (by omega : s1 + 1 ≠ 0), htOf]
    show pairTau tail (s1 + 1) = s1 + 2
    exact pairTau_not_mem tail (s1 + 1) hnm1
  have htauelseL : ∀ x, x ≠ 0 → encTau n (s1 :: tail) x = pairTau tail x := by
    intro x hx
    rw [encTau, Function.update_noteq hx, htOf]
    rfl
  have htau0' : encTau n ((s1 + 1) :: tail) 0 = s1 + 2 := by
    rw [encTau, Function.update_same, htOf']
    rfl
  have htauelse : ∀ x, x ≠ 0 → encTau n ((s1 + 1) :: tail) x = pairTau tail x := by
    intro x hx
    rw [encTau, Function.update_noteq hx, htOf']
    rfl
  simp only [GraySubsets.next, enc]
  rw [htau0, htOf, htaui]
  rw [if_pos (by omega : s1 + 1 < n + 1)]
  have hgi : ¬(s1 + 1 = 0 ∨ s1 + 1 ∈ s1 :: tail) := by
    simp only [List.mem_cons, not_or]
    exact ⟨by omega, by omega, hnm1⟩
  rw [if_neg hgi]
  rw [if_neg (by omega : ¬(0 : ℕ) = 1)]
  rw [if_neg (by omega : ¬(1 : ℕ) > 1)]
  rw [GraySubsets.adjust, if_pos (Or.inr rfl)]
  refine congrArg some ?_
  simp only [Prod.mk.injEq, GraySubsets.mk.injEq]
  refine ⟨⟨by omega, by omega⟩, trivial, htOf'.symm, trivial, ?_, ?_⟩
  · show Function.update (Function.update (encTau n (s1 :: tail)) 0 (s1 + 2)) (s1 + 1)
        (s1 + 1 + 1) = encTau n ((s1 + 1) :: tail)
    funext x
    rcases eq_or_ne x 0 with rfl | h0
    · rw [Function.update_noteq (by omega : (0 : ℕ) ≠ s1 + 1), Function.update_same, htau0']
    · rcases eq_or_ne x (s1 + 1) with rfl | h1
      · rw [Function.update_same, htauelse _ h0, pairTau_not_mem tail _ hnm1]
      · rw [Function.update_noteq h1, Function.update_noteq h0, htauelseL x h0, htauelse x h0]
  · rw [show s1 + 1 - 1 = s1 from by omega]
    funext x
    rcases eq_or_ne x (s1 + 1) with rfl | h1
    · rw [Function.update_same, if_pos (Or.inr (List.mem_cons_self _ _))]
    · rw [Function.update_noteq h1]
      rcases eq_or_ne x s1 with rfl | h2
      · rw [Function.update_same, if_neg]
        simp only [List.mem_cons, not_or]
        exact ⟨by omega, by omega, hnm0⟩
      · rw [Function.update_noteq h2]
        refine if_congr ?_ rfl rfl
        simp only [List.mem_cons]
        constructor
        · rintro (h | h | h)
          · exact Or.inl h
          · exact absurd h h2
          · exact Or.inr (Or.inr h)
        · rintro (h | h | h)
          · exact Or.inl h
          · exact absurd h h1
          · exact Or.inr (Or.inr h)

theorem step_A (n iv s1 s2 : ℕ) (rest : List ℕ) (hs1 : 2 ≤ s1)
    (hk : (s1 :: s2 :: rest).length % 2 = 0)
    (hch : List.Chain' (· < ·) (s1 :: s2 :: rest))
    (hguard : s1 ≤ n) :
    (enc n (s1 :: s2 :: rest) iv).next =
      some ((s1 - 1, s1 - 2), enc n ((s1 - 1) :: s2 :: rest) s1) := by
  have hs2 : s1 < s2 := (List.chain'_cons.mp hch).1
  have hch2 : List.Chain' (· < ·) (s2 :: rest) := (List.chain'_cons.mp hch).2
  have hrall : ∀ x ∈ rest, s2 < x :=
    (List.pairwise_cons.mp (List.chain'_iff_pairwise.mp hch2)).1
  have hs1r : s1 ∉ rest := fun hc => by have := hrall _ hc; omega
  have hs1r' : s1 - 1 ∉ rest := fun hc => by have := hrall _ hc; omega
  have htOf : tOf (s1 :: s2 :: rest) = 0 := tOf_A s1 (s2 :: rest) hs1 hk
  have htau0 : encTau n (s1 :: s2 :: rest) 0 = s1 := by
    rw [encTau, Function.update_same, htOf]
    rfl
  have htauelseL : ∀ x, x ≠ 0 → encTau n (s1 :: s2 :: rest) x = pairTau (s1 :: s2 :: rest) x := by
    intro x hx
    rw [encTau, Function.update_noteq hx, htOf]
    rfl
  have htaui : encTau n (s1 :: s2 :: rest) s1 = s2 + 1 := by
    rw [htauelseL s1 (by omega), pairTau_head]
  simp only [GraySubsets.next, enc]
  rw [htau0, htOf, htaui]
  rw [if_pos (by omega : s1 < n + 1)]
  rw [if_pos (Or.inr (List.mem_cons_self _ _)), if_pos rfl]
  rw [if_neg (by omega : ¬(0 : ℕ) > 0)]
  rcases eq_or_lt_of_le hs1 with heq | hgt
  · -- s1 = 2: adjust takes the "parked" branch, t becomes 2
    subst heq
    have htOf' : tOf (1 :: s2 :: rest) = 2 := by
      rw [tOf, snugLen_cons_eq, snugLen_cons_ne 2 s2 rest (by omega), if_neg]
      simp only [List.length_cons] at hk ⊢
      omega
    have htau0' : encTau n (1 :: s2 :: rest) 0 = s2 + 1 := by
      rw [encTau, Function.update_same, htOf']
      rfl
    have htauelse : ∀ x, x ≠ 0 → encTau n (1 :: s2 :: rest) x = pairTau rest x := by
      intro x hx
      rw [encTau, Function.update_noteq hx, htOf']
      rfl
    rw [GraySubsets.adjust, if_pos (Or.inl rfl)]
    refine congrArg some ?_
    simp only [Prod.mk.injEq, GraySubsets.mk.injEq]
    refine ⟨trivial, trivial, htOf'.symm, trivial, ?_, ?_⟩
    · show Function.update (Function.update (encTau n (2 :: s2 :: rest)) 0 (s2 + 1)) 2 (2 + 1) =
        encTau n (1 :: s2 :: rest)
      funext x
      rcases eq_or_ne x 0 with rfl | h0
      · rw [Function.update_noteq (by omega : (0 : ℕ) ≠ 2), Function.update_same, htau0']
      · rcases eq_or_ne x 2 with rfl | h2
        · rw [Function.update_same, htauelse _ h0,
            pairTau_not_mem rest _ (fun hc => by have := hrall _ hc; omega)]
        · rw [Function.update_noteq h2, Function.update_noteq h0, htauelseL x h0,
            pairTau_cons_ne _ _ _ _ h2, htauelse x h0]
    · funext x
      rcases eq_or_ne x 2 with rfl | h2
      · rw [Function.update_same, if_neg]
        simp only [List.mem_cons, not_or]
        refine ⟨by omega, by omega, by omega, fun hc => by have := hrall _ hc; omega⟩
      · rw [Function.update_noteq h2]
        rcases eq_or_ne x (2 - 1) with rfl | h1
        · rw [Function.update_same, if_pos (Or.inr (List.mem_cons_self _ _))]
        · rw [Function.update_noteq h1]
          refine if_congr ?_ rfl rfl
          simp only [List.mem_cons]
          constructor
          · rintro (h | h | h | h)
            · exact Or.inl h
            · exact absurd h h2
            · exact Or.inr (Or.inr (Or.inl h))
            · exact Or.inr (Or.inr (Or.inr h))
          · rintro (h | h | h | h)
            · exact Or.inl h
            · exact absurd h h1
            · exact Or.inr (Or.inr (Or.inl h))
            · exact Or.inr (Or.inr (Or.inr h))
  · -- s1 ≥ 3: adjust rewires tau and t becomes 0
    have htOf' : tOf ((s1 - 1) :: s2 :: rest) = 0 := by
      rw [tOf, snugLen_cons_ne 1 (s1 - 1) (s2 :: rest) (by omega), if_pos]
      simp only [List.length_cons] at hk ⊢
      omega
    have htau0' : encTau n ((s1 - 1) :: s2 :: rest) 0 = s1 - 1 := by
      rw [encTau, Function.update_same, htOf']
      rfl
    have htauelse : ∀ x, x ≠ 0 →
        encTau n ((s1 - 1) :: s2 :: rest) x = pairTau ((s1 - 1) :: s2 :: rest) x := by
      intro x hx
      rw [encTau, Function.update_noteq hx, htOf']
      rfl
    rw [GraySubsets.adjust, if_neg (by omega : ¬(0 + 1 = s1 - 1 ∨ 0 + 1 = 0))]
    have hg2v : Function.update
        (Function.update (fun x => if x = 0 ∨ x ∈ s1 :: s2 :: rest then (1 : ℕ) else 0) (s1 - 1) 1)
        s1 0 (s1 - 1) = 1 := by
      rw [Function.update_noteq (by omega : s1 - 1 ≠ s1), Function.update_same]
    rw [hg2v]
    refine congrArg some ?_
    simp only [Prod.mk.injEq, GraySubsets.mk.injEq]
    refine ⟨⟨trivial, by omega⟩, trivial, ?_, trivial, ?_, ?_⟩
    · show (0 + 1 - 1 : ℕ) = tOf ((s1 - 1) :: s2 :: rest)
      rw [htOf']
    · show Function.update (Function.update
          (Function.update (Function.update (encTau n (s1 :: s2 :: rest)) 0 (s2 + 1)) s1 (s1 + 1))
          (s1 - 1)
          (Function.update (Function.update (encTau n (s1 :: s2 :: rest)) 0 (s2 + 1)) s1 (s1 + 1) 0))
          0 (if 0 + 1 - 1 = 0 then s1 - 1 else 0 + 1 - 1 + 1) =
        encTau n ((s1 - 1) :: s2 :: rest)
      have hv0 : Function.update (Function.update (encTau n (s1 :: s2 :: rest)) 0 (s2 + 1))
          s1 (s1 + 1) 0 = s2 + 1 := by
        rw [Function.update_noteq (by omega : (0 : ℕ) ≠ s1), Function.update_same]
      rw [hv0, if_pos rfl]
      funext x
      rcases eq_or_ne x 0 with rfl | h0
      · rw [Function.update_same, htau0']
      · rw [Function.update_noteq h0]
        rcases eq_or_ne x (s1 - 1) with rfl | h1
        · rw [Function.update_same, htauelse _ h0, pairTau_head]
        · rw [Function.update_noteq h1]
          rcases eq_or_ne x s1 with rfl | hx1
          · rw [Function.update_same, htauelse _ h0, pairTau_cons_ne _ _ _ _ h1,
              pairTau_not_mem rest _ hs1r]
          · rw [Function.update_noteq hx1, Function.update_noteq h0, htauelseL x h0,
              pairTau_cons_ne _ _ _ _ hx1, htauelse x h0, pairTau_cons_ne _ _ _ _ h1]
    · funext x
      rcases eq_or_ne x s1 with rfl | hx1
      · rw [Function.update_same, if_neg]
        simp only [List.mem_cons, not_or]
        exact ⟨by omega, by omega, by omega, hs1r⟩
      · rw [Function.update_noteq hx1]
        rcases eq_or_ne x (s1 - 1) with rfl | h1
        · rw [Function.update_same, if_pos (Or.inr (List.mem_cons_self _ _))]
        · rw [Function.update_noteq h1]
          refine if_congr ?_ rfl rfl
          simp only [List.mem_cons]
          constructor
          · rintro (h | h | h | h)
            · exact Or.inl h
            · exact absurd h hx1
            · exact Or.inr (Or.inr (Or.inl h))
            · exact Or.inr (Or.inr (Or.inr h))
          · rintro (h | h | h | h)
            · exact Or.inl h
            · exact absurd h h1
            · exact Or.inr (Or.inr (Or.inl h))
            · exact Or.inr (Or.inr (Or.inr h))

theorem step_B (n iv t st r1 : ℕ) (rest2 : List ℕ) (ht : 1 ≤ t) (hst : t + 1 ≤ st)
    (hpar : t % 2 = ((t - 1) + (2 + (r1 :: rest2).length)) % 2)
    (hch : List.Chain' (· < ·) (List.range' 1 (t - 1) ++ st :: (st + 1) :: r1 :: rest2))
    (hguard : st + 1 ≤ n) :
    (enc n (List.range' 1 (t - 1) ++ st :: (st + 1) :: r1 :: rest2) iv).next =
      some ((st, t - 1),
        enc n (List.range' 1 (t - 1) ++ t :: st :: r1 :: rest2) (st + 1)) := by
  have hlenpre : (List.range' 1 (t - 1)).length = t - 1 := by simp
  have hmid : List.Chain' (· < ·) (st :: (st + 1) :: r1 :: rest2) :=
    (List.chain'_append.mp hch).2.1
  have hr1 : st + 1 < r1 := (List.chain'_cons.mp (List.chain'_cons.mp hmid).2).1
  have hr2all : ∀ x ∈ rest2, r1 < x :=
    (List.pairwise_cons.mp (List.chain'_iff_pairwise.mp
      ((List.chain'_cons.mp (List.chain'_cons.mp hmid).2).2))).1
  have htOf : tOf (List.range' 1 (t - 1) ++ st :: (st + 1) :: r1 :: rest2) = t :=
    tOf_B t st (r1 :: rest2) ht hst hpar
  have hgd1 : (List.range' 1 (t - 1) ++ st :: (st + 1) :: r1 :: rest2).getD (t - 1) 0 = st := by
    rw [List.getD_append_right _ _ _ _ (by omega : (List.range' 1 (t - 1)).length ≤ t - 1)]
    rw [hlenpre, Nat.sub_self]
    rfl
  have hdropt : (List.range' 1 (t - 1) ++ st :: (st + 1) :: r1 :: rest2).drop t =
      (st + 1) :: r1 :: rest2 := by
    rw [List.drop_append_eq_append_drop, List.drop_of_length_le (by omega), hlenpre]
    rw [show t - (t - 1) = 1 from by omega]
    rfl
  have htau0 : encTau n (List.range' 1 (t - 1) ++ st :: (st + 1) :: r1 :: rest2) 0 = st + 1 := by
    rw [encTau.eq_def, Function.update_same, htOf, if_pos ht, hgd1]
  have htauelseL : ∀ x, x ≠ 0 →
      encTau n (List.range' 1 (t - 1) ++ st :: (st + 1) :: r1 :: rest2) x =
        pairTau ((st + 1) :: r1 :: rest2) x := by
    intro x hx
    rw [encTau.eq_def, Function.update_noteq hx, htOf, hdropt]
  have htaui : encTau n (List.range' 1 (t - 1) ++ st :: (st + 1) :: r1 :: rest2) (st + 1) =
      r1 + 1 := by
    rw [htauelseL _ (by omega), pairTau_head]
  have hmem : st + 1 ∈ List.range' 1 (t - 1) ++ st :: (st + 1) :: r1 :: rest2 :=
    List.mem_append_right _ (by simp)
  simp only [GraySubsets.next, enc]
  rw [htau0, htOf, htaui]
  rw [if_pos (by omega : st + 1 < n + 1)]
  rw [if_pos (Or.inr hmem), if_pos rfl]
  rw [if_pos (by omega : t > 0)]
  rw [GraySubsets.adjust]
  by_cases hcase : st = t + 1
  · -- adjacent case: the leading run swallows st and t jumps to t + 2
    subst hcase
    rw [if_pos (Or.inl (by omega : t + 1 = t + 1 + 1 - 1))]
    have hsng : snugLen 1 (List.range' 1 (t - 1) ++ t :: (t + 1) :: r1 :: rest2) = t + 1 := by
      rw [snugLen_range'_append, show 1 + (t - 1) = t from by omega, snugLen_cons_eq,
        snugLen_cons_eq, snugLen_cons_ne _ _ _ (by omega : r1 ≠ t + 2)]
      omega
    have htOf' : tOf (List.range' 1 (t - 1) ++ t :: (t + 1) :: r1 :: rest2) = t + 2 := by
      rw [tOf, hsng, if_neg]
      simp only [List.length_append, List.length_range', List.length_cons] at hpar ⊢
      omega
    have hgd1' : (List.range' 1 (t - 1) ++ t :: (t + 1) :: r1 :: rest2).getD (t + 2 - 1) 0 =
        r1 := by
      rw [List.getD_append_right _ _ _ _ (by omega : (List.range' 1 (t - 1)).length ≤ t + 2 - 1)]
      rw [hlenpre, show t + 2 - 1 - (t - 1) = 2 from by omega]
      rfl
    have hdropt' : (List.range' 1 (t - 1) ++ t :: (t + 1) :: r1 :: rest2).drop (t + 2) =
        rest2 := by
      rw [List.drop_append_eq_append_drop, List.drop_of_length_le (by omega), hlenpre]
      rw [show t + 2 - (t - 1) = 3 from by omega]
      rfl
    have htau0' : encTau n (List.range' 1 (t - 1) ++ t :: (t + 1) :: r1 :: rest2) 0 = r1 + 1 := by
      rw [encTau.eq_def, Function.update_same, htOf', if_pos (by omega), hgd1']
    have htauelse : ∀ x, x ≠ 0 →
        encTau n (List.range' 1 (t - 1) ++ t :: (t + 1) :: r1 :: rest2) x = pairTau rest2 x := by
      intro x hx
      rw [encTau.eq_def, Function.update_noteq hx, htOf', hdropt']
    refine congrArg some ?_
    simp only [Prod.mk.injEq, GraySubsets.mk.injEq]
    refine ⟨⟨by omega, trivial⟩, trivial, by rw [htOf'], trivial, ?_, ?_⟩
    · funext x
      rcases eq_or_ne x 0 with rfl | h0
      · rw [Function.update_noteq (by omega : (0 : ℕ) ≠ t + 1 + 1), Function.update_same, htau0']
      · rcases eq_or_ne x (t + 1 + 1) with rfl | h2
        · rw [Function.update_same, htauelse _ h0,
            pairTau_not_mem rest2 _ (fun hc => by have := hr2all _ hc; omega)]
        · rw [Function.update_noteq h2, Function.update_noteq h0, htauelseL x h0,
            pairTau_cons_ne _ _ _ _ h2, htauelse x h0]
    · funext x
      rcases eq_or_ne x (t + 1 + 1) with rfl | h2
      · rw [Function.update_same, if_neg]
        simp only [List.mem_append, List.mem_cons, List.mem_range'_1, not_or]
        refine ⟨by omega, by omega, by omega, by omega, by omega,
          fun hc => by have := hr2all _ hc; omega⟩
      · rw [Function.update_noteq h2]
        rcases eq_or_ne x t with rfl | hxt
        · rw [Function.update_same, if_pos (Or.inr (List.mem_append_right _ (by simp)))]
        · rw [Function.update_noteq hxt]
          refine if_congr ?_ rfl rfl
          simp only [List.mem_append, List.mem_cons]
          constructor
          · rintro (h | h | h | h | h | h)
            exacts [Or.inl h, Or.inr (Or.inl h), Or.inr (Or.inr (Or.inr (Or.inl h))),
              absurd h h2, Or.inr (Or.inr (Or.inr (Or.inr (Or.inl h)))),
              Or.inr (Or.inr (Or.inr (Or.inr (Or.inr h))))]
          · rintro (h | h | h | h | h | h)
            exacts [Or.inl h, Or.inr (Or.inl h), absurd h hxt,
              Or.inr (Or.inr (Or.inl h)), Or.inr (Or.inr (Or.inr (Or.inr (Or.inl h)))),
              Or.inr (Or.inr (Or.inr (Or.inr (Or.inr h))))]
  · -- non-adjacent case: tau is rewired at st and t is restored
    have hst2 : t + 2 ≤ st := by omega
    rw [if_neg (by omega : ¬(t + 1 = st + 1 - 1 ∨ t + 1 = 0))]
    rw [show st + 1 - 1 = st from by omega]
    have hmemst : st ∈ List.range' 1 (t - 1) ++ st :: (st + 1) :: r1 :: rest2 :=
      List.mem_append_right _ (by simp)
    have hg2st : Function.update (Function.update
        (fun x => if x = 0 ∨ x ∈ List.range' 1 (t - 1) ++ st :: (st + 1) :: r1 :: rest2
          then (1 : ℕ) else 0) t 1) (st + 1) 0 st = 1 := by
      rw [Function.update_noteq (by omega : st ≠ st + 1),
        Function.update_noteq (by omega : st ≠ t), if_pos (Or.inr hmemst)]
    rw [hg2st, show t + 1 - 1 = t from by omega]
    dsimp only
    rw [if_neg (by omega : ¬t = 0)]
    have hv0 : Function.update (Function.update
        (encTau n (List.range' 1 (t - 1) ++ st :: (st + 1) :: r1 :: rest2)) 0 (r1 + 1))
        (st + 1) (st + 1 + 1) 0 = r1 + 1 := by
      rw [Function.update_noteq (by omega : (0 : ℕ) ≠ st + 1), Function.update_same]
    rw [hv0]
    have hpar' : t % 2 = ((t - 1) + (1 + (st :: r1 :: rest2).length)) % 2 := by
      simp only [List.length_cons] at hpar ⊢
      omega
    have htOf' : tOf (List.range' 1 (t - 1) ++ t :: st :: r1 :: rest2) = t := by
      have := tOf_C t t (st :: r1 :: rest2) ht le_rfl
        (fun x hx => by simp at hx; omega) hpar'
      simpa using this
    have hgd1' : (List.range' 1 (t - 1) ++ t :: st :: r1 :: rest2).getD (t - 1) 0 = t := by
      rw [List.getD_append_right _ _ _ _ (by omega : (List.range' 1 (t - 1)).length ≤ t - 1)]
      rw [hlenpre, Nat.sub_self]
      rfl
    have hdropt' : (List.range' 1 (t - 1) ++ t :: st :: r1 :: rest2).drop t =
        st :: r1 :: rest2 := by
      rw [List.drop_append_eq_append_drop, List.drop_of_length_le (by omega), hlenpre]
      rw [show t - (t - 1) = 1 from by omega]
      rfl
    have htau0' : encTau n (List.range' 1 (t - 1) ++ t :: st :: r1 :: rest2) 0 = t + 1 := by
      rw [encTau.eq_def, Function.update_same, htOf', if_pos ht, hgd1']
    have htauelse : ∀ x, x ≠ 0 →
        encTau n (List.range' 1 (t - 1) ++ t :: st :: r1 :: rest2) x =
          pairTau (st :: r1 :: rest2) x := by
      intro x hx
      rw [encTau.eq_def, Function.update_noteq hx, htOf', hdropt']
    refine congrArg some ?_
    simp only [Prod.mk.injEq, GraySubsets.mk.injEq]
    refine ⟨trivial, trivial, htOf'.symm, trivial, ?_, ?_⟩
    · funext x
      rcases eq_or_ne x 0 with rfl | h0
      · rw [Function.update_same, htau0']
      · rw [Function.update_noteq h0]
        rcases eq_or_ne x st with rfl | hxst
        · rw [Function.update_same, htauelse _ h0, pairTau_head]
        · rw [Function.update_noteq hxst]
          rcases eq_or_ne x (st + 1) with rfl | hxst1
          · rw [Function.update_same, htauelse _ h0, pairTau_cons_ne _ _ _ _ hxst,
              pairTau_not_mem rest2 _ (fun hc => by have := hr2all _ hc; omega)]
          · rw [Function.update_noteq hxst1, Function.update_noteq h0, htauelseL x h0,
              pairTau_cons_ne _ _ _ _ hxst1, htauelse x h0, pairTau_cons_ne _ _ _ _ hxst]
    · funext x
      rcases eq_or_ne x (st + 1) with rfl | h2
      · rw [Function.update_same, if_neg]
        simp only [List.mem_append, List.mem_cons, List.mem_range'_1, not_or]
        refine ⟨by omega, by omega, by omega, by omega, by omega,
          fun hc => by have := hr2all _ hc; omega⟩
      · rw [Function.update_noteq h2]
        rcases eq_or_ne x t with rfl | hxt
        · rw [Function.update_same, if_pos (Or.inr (List.mem_append_right _ (by simp)))]
        · rw [Function.update_noteq hxt]
          refine if_congr ?_ rfl rfl
          simp only [List.mem_append, List.mem_cons]
          constructor
          · rintro (h | h | h | h | h | h)
            exacts [Or.inl h, Or.inr (Or.inl h), Or.inr (Or.inr (Or.inr (Or.inl h))),
              absurd h h2, Or.inr (Or.inr (Or.inr (Or.inr (Or.inl h)))),
              Or.inr (Or.inr (Or.inr (Or.inr (Or.inr h))))]
          · rintro (h | h | h | h | h | h)
            exacts [Or.inl h, Or.inr (Or.inl h), absurd h hxt,
              Or.inr (Or.inr (Or.inl h)), Or.inr (Or.inr (Or.inr (Or.inr (Or.inl h)))),
              Or.inr (Or.inr (Or.inr (Or.inr (Or.inr h))))]

theorem range'_one_getD (m i : ℕ) (h : i < m) : (List.range' 1 m).getD i 0 = i + 1 := by
  rw [List.getD_eq_getElem?_getD, List.getElem?_range' _ _ h]
  show 1 + 1 * i = i + 1
  omega

theorem step_C (n iv t st : ℕ) (rest : List ℕ) (ht : 2 ≤ t) (hst : t ≤ st)
    (hrest : ∀ x ∈ rest.head?, st + 2 ≤ x)
    (hpar : t % 2 = ((t - 1) + (1 + rest.length)) % 2)
    (hch : List.Chain' (· < ·) (List.range' 1 (t - 1) ++ st :: rest))
    (hguard : st + 1 ≤ n) :
    (enc n (List.range' 1 (t - 1) ++ st :: rest) iv).next =
      some ((t - 2, st),
        enc n (List.range' 1 (t - 2) ++ st :: (st + 1) :: rest) (st + 1)) := by
  have hlenpre : (List.range' 1 (t - 1)).length = t - 1 := by simp
  have hmid : List.Chain' (· < ·) (st :: rest) := (List.chain'_append.mp hch).2.1
  have hchrest : List.Chain' (· < ·) rest := (List.chain'_cons'.mp hmid).2
  have hrall : ∀ x ∈ rest, st + 2 ≤ x := chain'_head_le rest (st + 2) hchrest hrest
  have htOf : tOf (List.range' 1 (t - 1) ++ st :: rest) = t :=
    tOf_C t st rest (by omega) hst hrest hpar
  have hgd1 : (List.range' 1 (t - 1) ++ st :: rest).getD (t - 1) 0 = st := by
    rw [List.getD_append_right _ _ _ _ (by omega : (List.range' 1 (t - 1)).length ≤ t - 1)]
    rw [hlenpre, Nat.sub_self]
    rfl
  have hdropt : (List.range' 1 (t - 1) ++ st :: rest).drop t = rest := by
    rw [List.drop_append_eq_append_drop, List.drop_of_length_le (by omega), hlenpre]
    rw [show t - (t - 1) = 1 from by omega]
    rfl
  have htau0 : encTau n (List.range' 1 (t - 1) ++ st :: rest) 0 = st + 1 := by
    rw [encTau.eq_def, Function.update_same, htOf, if_pos (by omega), hgd1]
  have htauelseL : ∀ x, x ≠ 0 →
      encTau n (List.range' 1 (t - 1) ++ st :: rest) x = pairTau rest x := by
    intro x hx
    rw [encTau.eq_def, Function.update_noteq hx, htOf, hdropt]
  have htaui : encTau n (List.range' 1 (t - 1) ++ st :: rest) (st + 1) = st + 2 := by
    rw [htauelseL _ (by omega),
      pairTau_not_mem rest _ (fun hc => by have := hrall _ hc; omega)]
  have hgi : ¬(st + 1 = 0 ∨ st + 1 ∈ List.range' 1 (t - 1) ++ st :: rest) := by
    simp only [List.mem_append, List.mem_cons, List.mem_range'_1, not_or]
    exact ⟨by omega, by omega, by omega, fun hc => by have := hrall _ hc; omega⟩
  simp only [GraySubsets.next, enc]
  rw [htau0, htOf, htaui]
  rw [if_pos (by omega : st + 1 < n + 1)]
  rw [if_neg hgi]
  rw [if_neg (by omega : ¬(0 : ℕ) = 1)]
  rw [if_pos (by omega : t > 1)]
  rw [GraySubsets.adjust, if_neg (by omega : ¬(t - 1 = st + 1 - 1 ∨ t - 1 = 0))]
  rw [show st + 1 - 1 = st from by omega]
  dsimp only
  have hmemst : st ∈ List.range' 1 (t - 1) ++ st :: rest :=
    List.mem_append_right _ (by simp)
  have hg2st : Function.update (Function.update
      (fun x => if x = 0 ∨ x ∈ List.range' 1 (t - 1) ++ st :: rest then (1 : ℕ) else 0)
      (t - 1) 0) (st + 1) 1 st = 1 := by
    rw [Function.update_noteq (by omega : st ≠ st + 1),
      Function.update_noteq (by omega : st ≠ t - 1), if_pos (Or.inr hmemst)]
  rw [hg2st, show t - 1 - 1 = t - 2 from by omega]
  have hv0 : Function.update (Function.update
      (encTau n (List.range' 1 (t - 1) ++ st :: rest)) 0 (st + 2))
      (st + 1) (st + 1 + 1) 0 = st + 2 := by
    rw [Function.update_noteq (by omega : (0 : ℕ) ≠ st + 1), Function.update_same]
  rw [hv0]
  have hsng : snugLen 1 (List.range' 1 (t - 2) ++ st :: (st + 1) :: rest) = t - 2 := by
    rw [snugLen_range'_append, snugLen_cons_ne _ _ _ (by omega : st ≠ 1 + (t - 2))]
    omega
  have htOf' : tOf (List.range' 1 (t - 2) ++ st :: (st + 1) :: rest) = t - 2 := by
    rw [tOf, hsng, if_pos]
    simp only [List.length_append, List.length_range', List.length_cons] at hpar ⊢
    omega
  have hdropt' : (List.range' 1 (t - 2) ++ st :: (st + 1) :: rest).drop (t - 2) =
      st :: (st + 1) :: rest := by
    rw [List.drop_append_eq_append_drop, List.drop_of_length_le (by simp)]
    simp only [List.length_range', Nat.sub_self, List.drop_zero, List.nil_append]
  have htau0' : encTau n (List.range' 1 (t - 2) ++ st :: (st + 1) :: rest) 0 =
      if t - 2 = 0 then st else t - 2 + 1 := by
    by_cases ht2 : t - 2 = 0
    · rw [if_pos ht2, encTau.eq_def, Function.update_same, htOf', ht2]
      simp only [List.range'_zero, List.nil_append]
      rfl
    · have hgd' : (List.range' 1 (t - 2) ++ st :: (st + 1) :: rest).getD (t - 2 - 1) 0 =
          t - 2 := by
        rw [List.getD_append _ _ _ _ (by simp; omega), range'_one_getD _ _ (by omega)]
        omega
      rw [if_neg ht2, encTau.eq_def, Function.update_same, htOf',
        if_pos (by omega : 1 ≤ t - 2), hgd']
  have htauelse : ∀ x, x ≠ 0 →
      encTau n (List.range' 1 (t - 2) ++ st :: (st + 1) :: rest) x =
        pairTau (st :: (st + 1) :: rest) x := by
    intro x hx
    rw [encTau.eq_def, Function.update_noteq hx, htOf', hdropt']
  refine congrArg some ?_
  simp only [Prod.mk.injEq, GraySubsets.mk.injEq]
  refine ⟨trivial, trivial, htOf'.symm, trivial, ?_, ?_⟩
  · funext x
    rcases eq_or_ne x 0 with rfl | h0
    · rw [Function.update_same, htau0']
    · rw [Function.update_noteq h0]
      rcases eq_or_ne x st with rfl | hxst
      · rw [Function.update_same, htauelse _ h0, pairTau_head]
      · rw [Function.update_noteq hxst]
        rcases eq_or_ne x (st + 1) with rfl | hxst1
        · rw [Function.update_same, htauelse _ h0, pairTau_cons_ne _ _ _ _ hxst,
            pairTau_not_mem rest _ (fun hc => by have := hrall _ hc; omega)]
        · rw [Function.update_noteq hxst1, Function.update_noteq h0, htauelseL x h0,
            htauelse x h0, pairTau_cons_ne _ _ _ _ hxst]
  · funext x
    rcases eq_or_ne x (st + 1) with rfl | h2
    · rw [Function.update_same, if_pos (Or.inr (List.mem_append_right _ (by simp)))]
    · rw [Function.update_noteq h2]
      rcases eq_or_ne x (t - 1) with rfl | hxt
      · rw [Function.update_same, if_neg]
        simp only [List.mem_append, List.mem_cons, List.mem_range'_1, not_or]
        exact ⟨by omega, by omega, by omega, by omega,
          fun hc => by have := hrall _ hc; omega⟩
      · rw [Function.update_noteq hxt]
        refine if_congr ?_ rfl rfl
        simp only [List.mem_append, List.mem_cons, List.mem_range'_1]
        constructor
        · rintro (h | ⟨h1a, h1b⟩ | h | h)
          exacts [Or.inl h, Or.inr (Or.inl ⟨h1a, by omega⟩),
            Or.inr (Or.inr (Or.inl h)), Or.inr (Or.inr (Or.inr (Or.inr h)))]
        · rintro (h | ⟨h1a, h1b⟩ | h | h | h)
          exacts [Or.inl h, Or.inr (Or.inl ⟨h1a, by omega⟩),
            Or.inr (Or.inr (Or.inl h)), absurd h h2,
            Or.inr (Or.inr (Or.inr h))]

theorem step_main (n iv : ℕ) (S : List ℕ) (hne : S ≠ []) (hch : List.Chain' (· < ·) S)
    (hbnd : ∀ x ∈ S, 1 ≤ x ∧ x ≤ n) (hsucc : ∀ x ∈ succR S, x ≤ n) :
    ∃ j, (enc n S iv).next = some ((succT S).2, enc n (succR S) j) := by
  rcases shape_cover S hne hch (fun x hx => (hbnd x hx).1) with ⟨s1, tail, hS, hs1, hpar⟩ |
    ⟨s1, tail, hS, hs1, hpar, htail⟩ |
    ⟨t, st, rest, hS, ht, hst, hpar⟩ |
    ⟨t, st, rest, hS, ht, hst, hrest, hpar⟩
  · -- rule A
    cases tail with
    | nil =>
      exfalso
      rw [hS] at hpar
      simp at hpar
    | cons s2 rest =>
      refine ⟨s1, ?_⟩
      have hkA : (s1 :: s2 :: rest).length % 2 = 0 := hS ▸ hpar
      rw [hS, succR, succT_A s1 (s2 :: rest) hs1 hkA]
      dsimp only
      exact step_A n iv s1 s2 rest hs1 hkA (hS ▸ hch)
        (hbnd s1 (by rw [hS]; simp)).2
  · -- rule D
    refine ⟨s1 + 1, ?_⟩
    have hkD : (s1 :: tail).length % 2 = 1 := hS ▸ hpar
    rw [hS, succR, succT_D s1 tail hs1 hkD htail]
    dsimp only
    refine step_D n iv s1 tail hs1 hkD htail (hS ▸ hch) ?_
    apply hsucc
    rw [succR, hS, succT_D s1 tail hs1 hkD htail]
    simp
  · -- rule B
    cases rest with
    | nil =>
      exfalso
      simp only [List.length_nil] at hpar
      omega
    | cons r1 rest2 =>
      refine ⟨st + 1, ?_⟩
      rw [hS, succR, succT_B t st (r1 :: rest2) ht hst hpar]
      dsimp only
      refine step_B n iv t st r1 rest2 ht hst hpar (hS ▸ hch) ?_
      have := (hbnd (st + 1) (by rw [hS]; exact List.mem_append_right _ (by simp))).2
      omega
  · -- rule C
    refine ⟨st + 1, ?_⟩
    rw [hS, succR, succT_C t st rest ht hst hrest hpar]
    dsimp only
    refine step_C n iv t st rest ht hst hrest hpar (hS ▸ hch) ?_
    apply hsucc
    rw [succR, hS, succT_C t st rest ht hst hrest hpar]
    simp

theorem halt_empty (n iv : ℕ) : (enc n [] iv).next = none := by
  have htau0 : encTau n ([] : List ℕ) 0 = n + 1 := by
    rw [encTau.eq_def, Function.update_same]
    rfl
  simp only [GraySubsets.next, enc]
  rw [htau0]
  rw [if_neg (by omega : ¬n + 1 < n + 1)]

theorem halt_final (n iv k : ℕ) (hk1 : 1 ≤ k) (hkn : k ≤ n) :
    (enc n (List.range' 1 (k - 1) ++ [n]) iv).next = none := by
  have htOf : tOf (List.range' 1 (k - 1) ++ [n]) = k := by
    have := tOf_C k n [] hk1 hkn (by simp) (by simp; omega)
    simpa using this
  have hgd : (List.range' 1 (k - 1) ++ [n]).getD (k - 1) 0 = n := by
    rw [List.getD_append_right _ _ _ _ (by simp : (List.range' 1 (k - 1)).length ≤ k - 1)]
    simp only [List.length_range', Nat.sub_self]
    rfl
  have htau0 : encTau n (List.range' 1 (k - 1) ++ [n]) 0 = n + 1 := by
    rw [encTau.eq_def, Function.update_same, htOf, if_pos hk1, hgd]
  simp only [GraySubsets.next, enc]
  rw [htau0]
  rw [if_neg (by omega : ¬n + 1 < n + 1)]

theorem snugLen_range'_self (k : ℕ) : snugLen 1 (List.range' 1 k) = k := by
  have h := snugLen_range'_append k 1 []
  simpa using h

theorem tOf_range' (k : ℕ) : tOf (List.range' 1 k) = k := by
  rw [tOf, snugLen_range'_self, if_pos (by simp)]

theorem new_eq_enc (n k : ℕ) : GraySubsets.new n k = enc n (List.range' 1 k) 0 := by
  simp only [GraySubsets.new, enc, GraySubsets.mk.injEq]
  refine ⟨trivial, (tOf_range' k).symm, trivial, ?_, ?_⟩
  · funext x
    rcases eq_or_ne x 0 with rfl | h0
    · rw [Function.update_same, encTau.eq_def, Function.update_same, tOf_range']
      by_cases hk : k = 0
      · subst hk
        rw [if_neg (by omega : ¬(0 : ℕ) > 0)]
        simp only [List.range'_zero]
        rfl
      · rw [if_pos (by omega : k > 0), if_pos (by omega : 1 ≤ k),
          range'_one_getD k (k - 1) (by omega)]
        omega
    · rw [Function.update_noteq h0, encTau.eq_def, Function.update_noteq h0, tOf_range']
      rw [List.drop_of_length_le (by simp)]
      rfl
  · funext x
    refine if_congr ?_ rfl rfl
    simp only [List.mem_range'_1]
    omega

theorem runGray_of_chain (n : ℕ) :
    ∀ (L : List (List ℕ)) (hne : L ≠ []) (iv fuel : ℕ),
    List.Chain' (fun a b => succR a = b) L →
    (∀ S ∈ L, S ≠ [] ∧ List.Chain' (· < ·) S ∧ ∀ x ∈ S, 1 ≤ x ∧ x ≤ n) →
    (∀ j, (enc n (L.getLast hne) j).next = none) →
    L.length - 1 ≤ fuel →
    runGray fuel (enc n (L.head hne) iv) = L.dropLast.map (fun S => (succT S).2) := by
  intro L
  induction L with
  | nil => intro hne; exact absurd rfl hne
  | cons S L' ih =>
    intro hne iv fuel hchain hvalid hhalt hfuel
    cases L' with
    | nil =>
      cases fuel with
      | zero => rfl
      | succ f =>
        have hh : (enc n S iv).next = none := hhalt iv
        show runGray (f + 1) (enc n S iv) = []
        rw [runGray, hh]
    | cons S2 L'' =>
      have hSS2 : succR S = S2 := (List.chain'_cons.mp hchain).1
      have hv := hvalid S (by simp)
      have hv2 := hvalid S2 (by simp)
      obtain ⟨j, hstep⟩ := step_main n iv S hv.1 hv.2.1 hv.2.2
        (fun x hx => (hv2.2.2 x (hSS2 ▸ hx)).2)
      cases fuel with
      | zero =>
        exfalso
        simp only [List.length_cons] at hfuel
        omega
      | succ f =>
        show runGray (f + 1) (enc n S iv) = _
        rw [runGray, hstep]
        have hne2 : S2 :: L'' ≠ [] := by simp
        have hh : runGray f (enc n S2 j) =
            (S2 :: L'').dropLast.map (fun S => (succT S).2) :=
          ih hne2 j f (List.chain'_cons.mp hchain).2
            (fun T hT => hvalid T (by simp [hT]))
            (fun j2 => by
              have := hhalt j2
              rwa [List.getLast_cons (by simp : S2 :: L'' ≠ [])] at this)
            (by simp only [List.length_cons] at hfuel ⊢; omega)
        show (succT S).2 :: runGray f (enc n (succR S) j) = _
        rw [hSS2, hh]
        rfl

theorem sorted_eq_of_mem_iff : ∀ (S T : List ℕ), List.Chain' (· < ·) S →
    List.Chain' (· < ·) T → (∀ x, x ∈ S ↔ x ∈ T) → S = T := by
  intro S
  induction S with
  | nil =>
    intro T _ _ hm
    cases T with
    | nil => rfl
    | cons b T' => exact absurd ((hm b).mpr (by simp)) (by simp)
  | cons a S' ihS =>
    intro T hS hT hm
    cases T with
    | nil => exact absurd ((hm a).mp (by simp)) (by simp)
    | cons b T' =>
      have hS'all : ∀ x ∈ S', a < x :=
        (List.pairwise_cons.mp (List.chain'_iff_pairwise.mp hS)).1
      have hT'all : ∀ x ∈ T', b < x :=
        (List.pairwise_cons.mp (List.chain'_iff_pairwise.mp hT)).1
      have hab : a = b := by
        have h1 := (hm a).mp (by simp)
        have h2 := (hm b).mpr (by simp)
        simp only [List.mem_cons] at h1 h2
        rcases h1 with h1 | h1
        · exact h1
        · rcases h2 with h2 | h2
          · omega
          · have hx1 := hS'all b h2
            have hx2 := hT'all a h1
            omega
      subst hab
      have hm' : ∀ x, x ∈ S' ↔ x ∈ T' := by
        intro x
        constructor
        · intro hx
          have h := (hm x).mp (by simp [hx])
          simp only [List.mem_cons] at h
          rcases h with h | h
          · exact absurd (hS'all x hx) (by omega)
          · exact h
        · intro hx
          have h := (hm x).mpr (by simp [hx])
          simp only [List.mem_cons] at h
          rcases h with h | h
          · exact absurd (hT'all x hx) (by omega)
          · exact h
      rw [ihS T' (List.chain'_cons'.mp hS).2 (List.chain'_cons'.mp hT).2 hm']

theorem bitvecOf_getElem? (n : ℕ) (S : List ℕ) (i : ℕ) (h : i < n) :
    (bitvecOf n S)[i]? = some (if i + 1 ∈ S then 1 else 0) := by
  rw [bitvecOf, List.getElem?_map, List.getElem?_range h]
  rfl

theorem bitvecOf_length (n : ℕ) (S : List ℕ) : (bitvecOf n S).length = n := by
  rw [bitvecOf, List.length_map, List.length_range]

theorem bitvec_applyTrans (n r a : ℕ) (S S' : List ℕ) (hr1 : 1 ≤ r) (ha1 : 1 ≤ a)
    (_hrn : r ≤ n) (_han : a ≤ n) (hra : a ≠ r)
    (hmem : ∀ x, x ∈ S' ↔ (x ∈ S ∧ x ≠ r) ∨ x = a) :
    applyTrans (bitvecOf n S) (r - 1, a - 1) = bitvecOf n S' := by
  apply List.ext_getElem?
  intro i
  rw [applyTrans]
  by_cases hin : i < n
  · rw [bitvecOf_getElem? n S' i hin]
    rcases eq_or_ne i (a - 1) with rfl | hia
    · rw [List.getElem?_set_self (by
        rw [List.length_set, bitvecOf_length]
        omega)]
      have : a - 1 + 1 ∈ S' := by
        rw [show a - 1 + 1 = a from by omega]
        exact (hmem a).mpr (Or.inr rfl)
      rw [if_pos this]
    · rw [List.getElem?_set_ne (fun hc => hia hc.symm)]
      rcases eq_or_ne i (r - 1) with rfl | hir
      · rw [List.getElem?_set_self (by rw [bitvecOf_length]; omega)]
        have : ¬(r - 1 + 1 ∈ S') := by
          rw [show r - 1 + 1 = r from by omega]
          intro hc
          rcases (hmem r).mp hc with ⟨_, hc2⟩ | hc2
          · exact hc2 rfl
          · exact hra (by omega)
        rw [if_neg this]
      · rw [List.getElem?_set_ne (fun hc => hir hc.symm), bitvecOf_getElem? n S i hin]
        refine congrArg some (if_congr ?_ rfl rfl)
        constructor
        · intro hx
          exact (hmem (i + 1)).mpr (Or.inl ⟨hx, by omega⟩)
        · intro hx
          rcases (hmem (i + 1)).mp hx with ⟨hx2, _⟩ | hx2
          · exact hx2
          · exact absurd hx2 (by omega)
  · have h1 : (bitvecOf n S').length ≤ i := by rw [bitvecOf_length]; omega
    have h2 : (((bitvecOf n S).set (r - 1) 0).set (a - 1) 1).length ≤ i := by
      rw [List.length_set, List.length_set, bitvecOf_length]
      omega
    rw [List.getElem?_eq_none h1, List.getElem?_eq_none h2]

theorem applyTrans_succ (n : ℕ) (S : List ℕ) (hne : S ≠ []) (hch : List.Chain' (· < ·) S)
    (hbnd : ∀ x ∈ S, 1 ≤ x ∧ x ≤ n) (hsucc : ∀ x ∈ succR S, x ≤ n) :
    applyTrans (bitvecOf n S) (succT S).2 = bitvecOf n (succR S) := by
  rcases shape_cover S hne hch (fun x hx => (hbnd x hx).1) with ⟨s1, tail, hS, hs1, hpar⟩ |
    ⟨s1, tail, hS, hs1, hpar, htail⟩ |
    ⟨t, st, rest, hS, ht, hst, hpar⟩ |
    ⟨t, st, rest, hS, ht, hst, hrest, hpar⟩
  · -- rule A: remove s1, add s1 - 1
    have hkA : (s1 :: tail).length % 2 = 0 := hS ▸ hpar
    have htall : ∀ x ∈ tail, s1 < x :=
      (List.pairwise_cons.mp (List.chain'_iff_pairwise.mp (hS ▸ hch))).1
    rw [hS, succR, succT_A s1 tail hs1 hkA]
    dsimp only
    rw [show ((s1 - 1, s1 - 2) : ℕ × ℕ) = (s1 - 1, s1 - 1 - 1) from by
      rw [show s1 - 1 - 1 = s1 - 2 from by omega]]
    have hsn : s1 ≤ n := (hbnd s1 (by rw [hS]; simp)).2
    refine bitvec_applyTrans n s1 (s1 - 1) _ _ (by omega) (by omega)
      hsn (by omega) (by omega) ?_
    intro x
    simp only [List.mem_cons]
    constructor
    · rintro (rfl | hx)
      · exact Or.inr rfl
      · exact Or.inl ⟨Or.inr hx, by have := htall x hx; omega⟩
    · rintro (⟨hx, hxne⟩ | rfl)
      · rcases hx with rfl | hx
        · exact absurd rfl hxne
        · exact Or.inr hx
      · exact Or.inl rfl
  · -- rule D: remove s1, add s1 + 1
    have hkD : (s1 :: tail).length % 2 = 1 := hS ▸ hpar
    have htall : ∀ x ∈ tail, s1 < x :=
      (List.pairwise_cons.mp (List.chain'_iff_pairwise.mp (hS ▸ hch))).1
    have hs1n : s1 + 1 ≤ n := by
      apply hsucc
      rw [succR, hS, succT_D s1 tail hs1 hkD htail]
      simp
    rw [hS, succR, succT_D s1 tail hs1 hkD htail]
    dsimp only
    rw [show ((s1 - 1, s1) : ℕ × ℕ) = (s1 - 1, s1 + 1 - 1) from by
      rw [show s1 + 1 - 1 = s1 from by omega]]
    refine bitvec_applyTrans n s1 (s1 + 1) _ _ (by omega) (by omega)
      ((hbnd s1 (by rw [hS]; simp)).2) hs1n (by omega) ?_
    intro x
    simp only [List.mem_cons]
    constructor
    · rintro (rfl | hx)
      · exact Or.inr rfl
      · exact Or.inl ⟨Or.inr hx, by have := htall x hx; omega⟩
    · rintro (⟨hx, hxne⟩ | rfl)
      · rcases hx with rfl | hx
        · exact absurd rfl hxne
        · exact Or.inr hx
      · exact Or.inl rfl
  · -- rule B: remove st + 1, add t
    have hmid : List.Chain' (· < ·) (st :: (st + 1) :: rest) :=
      (List.chain'_append.mp (hS ▸ hch)).2.1
    have hrall : ∀ x ∈ rest, st + 1 < x :=
      (List.pairwise_cons.mp (List.chain'_iff_pairwise.mp
        (List.chain'_cons.mp hmid).2)).1
    have hstn : st + 1 ≤ n :=
      (hbnd (st + 1) (by rw [hS]; exact List.mem_append_right _ (by simp))).2
    rw [hS, succR, succT_B t st rest ht hst hpar]
    dsimp only
    rw [show ((st, t - 1) : ℕ × ℕ) = (st + 1 - 1, t - 1) from by
      rw [show st + 1 - 1 = st from by omega]]
    refine bitvec_applyTrans n (st + 1) t _ _ (by omega) (by omega)
      hstn (by omega) (by omega) ?_
    intro x
    simp only [List.mem_append, List.mem_cons, List.mem_range'_1]
    constructor
    · rintro (⟨h1, h2⟩ | rfl | rfl | hx)
      · exact Or.inl ⟨Or.inl ⟨h1, h2⟩, by omega⟩
      · exact Or.inr rfl
      · exact Or.inl ⟨Or.inr (Or.inl rfl), by omega⟩
      · exact Or.inl ⟨Or.inr (Or.inr (Or.inr hx)), by have := hrall x hx; omega⟩
    · rintro (⟨(⟨h1, h2⟩ | rfl | h | hx), hxne⟩ | rfl)
      · exact Or.inl ⟨h1, h2⟩
      · exact Or.inr (Or.inr (Or.inl rfl))
      · exact absurd h (by omega)
      · exact Or.inr (Or.inr (Or.inr hx))
      · exact Or.inr (Or.inl rfl)
  · -- rule C: remove t - 1, add st + 1
    have hmid : List.Chain' (· < ·) (st :: rest) :=
      (List.chain'_append.mp (hS ▸ hch)).2.1
    have hrall : ∀ x ∈ rest, st + 2 ≤ x :=
      chain'_head_le rest (st + 2) (List.chain'_cons'.mp hmid).2 hrest
    have hstn : st + 1 ≤ n := by
      apply hsucc
      rw [succR, hS, succT_C t st rest ht hst hrest hpar]
      exact List.mem_append_right _ (by simp)
    rw [hS, succR, succT_C t st rest ht hst hrest hpar]
    dsimp only
    rw [show ((t - 2, st) : ℕ × ℕ) = (t - 1 - 1, st + 1 - 1) from by
      rw [show t - 1 - 1 = t - 2 from by omega, show st + 1 - 1 = st from by omega]]
    refine bitvec_applyTrans n (t - 1) (st + 1) _ _ (by omega) (by omega)
      (by omega) hstn (by omega) ?_
    intro x
    simp only [List.mem_append, List.mem_cons, List.mem_range'_1]
    constructor
    · rintro (⟨h1, h2⟩ | rfl | rfl | hx)
      · exact Or.inl ⟨Or.inl ⟨h1, by omega⟩, by omega⟩
      · exact Or.inl ⟨Or.inr (Or.inl rfl), by omega⟩
      · exact Or.inr rfl
      · exact Or.inl ⟨Or.inr (Or.inr hx), by have := hrall x hx; omega⟩
    · rintro (⟨(⟨h1, h2⟩ | rfl | hx), hxne⟩ | rfl)
      · exact Or.inl ⟨h1, by omega⟩
      · exact Or.inr (Or.inl rfl)
      · exact Or.inr (Or.inr (Or.inr hx))
      · exact Or.inr (Or.inr (Or.inl rfl))

theorem replay_of_chain (n : ℕ) :
    ∀ (L : List (List ℕ)) (hne : L ≠ []),
    List.Chain' (fun a b => succR a = b) L →
    (∀ S ∈ L, S ≠ [] ∧ List.Chain' (· < ·) S ∧ ∀ x ∈ S, 1 ≤ x ∧ x ≤ n) →
    replay (bitvecOf n (L.head hne)) (L.dropLast.map (fun S => (succT S).2)) =
      L.map (bitvecOf n) := by
  intro L
  induction L with
  | nil => intro hne; exact absurd rfl hne
  | cons S L' ih =>
    intro hne hchain hvalid
    cases L' with
    | nil => rfl
    | cons S2 L'' =>
      have hSS2 : succR S = S2 := (List.chain'_cons.mp hchain).1
      have hv := hvalid S (by simp)
      have hv2 := hvalid S2 (by simp)
      have happ : applyTrans (bitvecOf n S) (succT S).2 = bitvecOf n S2 := by
        rw [applyTrans_succ n S hv.1 hv.2.1 hv.2.2
          (fun x hx => (hv2.2.2 x (hSS2 ▸ hx)).2), hSS2]
      show replay (bitvecOf n S) ((succT S).2 :: (S2 :: L'').dropLast.map (fun S => (succT S).2)) = _
      rw [replay, List.scanl]
      have hh : List.scanl applyTrans (applyTrans (bitvecOf n S) (succT S).2)
          ((S2 :: L'').dropLast.map (fun S => (succT S).2)) =
          (S2 :: L'').map (bitvecOf n) := by
        rw [happ]
        exact ih (by simp) (List.chain'_cons.mp hchain).2
          (fun T hT => hvalid T (by simp [hT]))
      rw [hh]
      rfl

theorem count_one_filter : ∀ (v : List ℕ),
    ((List.range v.length).filter (fun i => v.getD i 0 == 1)).length = v.count 1 := by
  intro v
  induction v with
  | nil => rfl
  | cons a v' ih =>
    have hcomp : ((List.range v'.length).map Nat.succ).filter
        (fun i => (a :: v').getD i 0 == 1) =
        ((List.range v'.length).filter (fun i => v'.getD i 0 == 1)).map Nat.succ := by
      rw [List.filter_map Nat.succ (List.range v'.length)]
      refine congrArg _ (List.filter_congr ?_)
      intro i _
      rfl
    rw [List.length_cons, List.range_succ_eq_map, List.filter_cons, hcomp]
    by_cases ha : a = 1
    · subst ha
      rw [if_pos (show ((1 :: v').getD 0 0 == 1) = true from rfl), List.length_cons,
        List.length_map, ih, List.count_cons]
      simp
    · rw [if_neg (by simp [ha] : ¬((a :: v').getD 0 0 == 1) = true)]
      rw [List.length_map, ih, List.count_cons]
      simp [ha]

theorem filter_range'_mem (n : ℕ) (S : List ℕ) (hch : List.Chain' (· < ·) S)
    (hbnd : ∀ x ∈ S, 1 ≤ x ∧ x ≤ n) :
    (List.range' 1 n).filter (fun x => decide (x ∈ S)) = S := by
  apply sorted_eq_of_mem_iff
  · exact List.chain'_iff_pairwise.mpr ((List.pairwise_lt_range' 1 n).filter _)
  · exact hch
  · intro x
    simp only [List.mem_filter, List.mem_range'_1, decide_eq_true_eq]
    constructor
    · rintro ⟨_, hx⟩
      exact hx
    · intro hx
      exact ⟨⟨(hbnd x hx).1, by have := (hbnd x hx).2; omega⟩, hx⟩

theorem bitvec_extract (n : ℕ) (S : List ℕ) (hch : List.Chain' (· < ·) S)
    (hbnd : ∀ x ∈ S, 1 ≤ x ∧ x ≤ n) :
    (List.range' 1 n).filter (fun x => (bitvecOf n S).getD (x - 1) 0 == 1) = S := by
  rw [List.filter_congr, filter_range'_mem n S hch hbnd]
  intro x hx
  simp only [List.mem_range'_1] at hx
  rw [List.getD_eq_getElem?_getD, bitvecOf_getElem? n S (x - 1) (by omega)]
  rw [show x - 1 + 1 = x from by omega]
  by_cases hmem : x ∈ S
  · rw [if_pos hmem]
    simp [hmem]
  · rw [if_neg hmem]
    simp [hmem]

theorem bitvec_count (n : ℕ) (S : List ℕ) (hch : List.Chain' (· < ·) S)
    (hbnd : ∀ x ∈ S, 1 ≤ x ∧ x ≤ n) :
    (bitvecOf n S).count 1 = S.length := by
  have h1 := count_one_filter (bitvecOf n S)
  rw [bitvecOf_length] at h1
  rw [← h1]
  have hsh : (List.range' 1 n).filter (fun x => (bitvecOf n S).getD (x - 1) 0 == 1) =
      ((List.range n).filter (fun i => (bitvecOf n S).getD i 0 == 1)).map (1 + ·) := by
    rw [List.range'_eq_map_range, List.filter_map (1 + ·) (List.range n)]
    refine congrArg _ (List.filter_congr ?_)
    intro i _
    show ((bitvecOf n S).getD (1 + i - 1) 0 == 1) = _
    rw [show 1 + i - 1 = i from by omega]
  have h2 := congrArg List.length (hsh.symm.trans (bitvec_extract n S hch hbnd))
  rw [List.length_map] at h2
  omega

theorem bitvec_inj (n : ℕ) (S T : List ℕ) (hchS : List.Chain' (· < ·) S)
    (hchT : List.Chain' (· < ·) T) (hbS : ∀ x ∈ S, 1 ≤ x ∧ x ≤ n)
    (hbT : ∀ x ∈ T, 1 ≤ x ∧ x ≤ n) (h : bitvecOf n S = bitvecOf n T) : S = T := by
  have he := bitvec_extract n S hchS hbS
  rw [h, bitvec_extract n T hchT hbT] at he
  exact he.symm

theorem bitvec_of_bits (n : ℕ) (v : List ℕ) (hlen : v.length = n)
    (hbits : ∀ b ∈ v, b = 0 ∨ b = 1) :
    v = bitvecOf n ((List.range' 1 n).filter (fun x => v.getD (x - 1) 0 == 1)) := by
  apply List.ext_getElem?
  intro i
  by_cases hin : i < n
  · rw [bitvecOf_getElem? _ _ i hin]
    have hvi : ∃ b, v[i]? = some b ∧ (b = 0 ∨ b = 1) := by
      have hi2 : i < v.length := by omega
      exact ⟨v[i], List.getElem?_eq_getElem hi2, hbits _ (v.getElem_mem hi2)⟩
    obtain ⟨b, hb, hb01⟩ := hvi
    rw [hb]
    have hgd : v.getD i 0 = b := by
      rw [List.getD_eq_getElem?_getD, hb]
      rfl
    refine congrArg some ?_
    have hmemiff : (i + 1 ∈ (List.range' 1 n).filter (fun x => v.getD (x - 1) 0 == 1)) ↔
        b = 1 := by
      simp only [List.mem_filter, List.mem_range'_1]
      constructor
      · rintro ⟨_, hx⟩
        rw [show i + 1 - 1 = i from by omega, hgd] at hx
        simpa using hx
      · intro hx
        refine ⟨⟨by omega, by omega⟩, ?_⟩
        rw [show i + 1 - 1 = i from by omega, hgd, hx]
        rfl
    rcases hb01 with rfl | rfl
    · rw [if_neg]
      intro hc
      have := hmemiff.mp hc
      omega
    · rw [if_pos (hmemiff.mpr rfl)]
  · rw [List.getElem?_eq_none (by omega : v.length ≤ i),
      List.getElem?_eq_none (by rw [bitvecOf_length]; omega : (bitvecOf n _).length ≤ i)]

theorem init_new (n k : ℕ) : (GraySubsets.new n k).init = bitvecOf n (List.range' 1 k) := by
  simp only [GraySubsets.init, GraySubsets.new, bitvecOf]
  refine List.map_congr_left ?_
  intro x hx
  refine if_congr ?_ rfl rfl
  simp only [List.mem_range'_1]
  omega

theorem filter_range'_shift (n : ℕ) (v : List ℕ) :
    (List.range' 1 n).filter (fun x => v.getD (x - 1) 0 == 1) =
      ((List.range n).filter (fun i => v.getD i 0 == 1)).map (1 + ·) := by
  rw [List.range'_eq_map_range, List.filter_map (1 + ·) (List.range n)]
  refine congrArg _ (List.filter_congr ?_)
  intro i _
  show (v.getD (1 + i - 1) 0 == 1) = _
  rw [show 1 + i - 1 = i from by omega]

theorem R_ne_nil (n k : ℕ) (hk : k ≤ n) : R n k ≠ [] := by
  intro hc
  have hl := R_length n k
  rw [hc] at hl
  have := Nat.choose_pos hk
  simp at hl
  omega

theorem R_head_eq (n k : ℕ) (hk : k ≤ n) (hne : R n k ≠ []) :
    (R n k).head hne = List.range' 1 k := by
  have h1 := R_head n k hk
  rw [List.head?_eq_head hne] at h1
  exact Option.some_injective _ h1

theorem R_getLast_eq (n k : ℕ) (hk1 : 1 ≤ k) (hk : k ≤ n) (hne : R n k ≠ []) :
    (R n k).getLast hne = List.range' 1 (k - 1) ++ [n] := by
  have h1 := R_getLast n k hk1 hk
  rw [List.getLast?_eq_getLast _ hne] at h1
  exact Option.some_injective _ h1

theorem R_valid (n k : ℕ) (hk1 : 1 ≤ k) : ∀ S ∈ R n k,
    S ≠ [] ∧ List.Chain' (· < ·) S ∧ ∀ x ∈ S, 1 ≤ x ∧ x ≤ n := by
  intro S hS
  obtain ⟨hlen, hch, hbnd⟩ := R_mem n k S hS
  refine ⟨?_, hch, hbnd⟩
  intro hc
  rw [hc] at hlen
  simp at hlen
  omega

theorem runGray_R (n k : ℕ) (hk : k ≤ n) : ∀ fuel, Nat.choose n k - 1 ≤ fuel →
    runGray fuel (GraySubsets.new n k) = (R n k).dropLast.map (fun S => (succT S).2) := by
  intro fuel hfuel
  rcases Nat.eq_zero_or_pos k with rfl | hk1
  · have hR0 : R n 0 = [[]] := by cases n <;> rfl
    rw [hR0, new_eq_enc]
    show runGray fuel (enc n (List.range' 1 0) 0) = []
    cases fuel with
    | zero => rfl
    | succ f =>
      have hh : (enc n (List.range' 1 0) 0).next = none := halt_empty n 0
      rw [runGray, hh]
  · have hne := R_ne_nil n k hk
    have h := runGray_of_chain n (R n k) hne 0 fuel (R_chain n k) (R_valid n k hk1)
      (fun j => by
        rw [R_getLast_eq n k hk1 hk hne]
        exact halt_final n j k hk1 hk)
      (by rw [R_length]; omega)
    rw [R_head_eq n k hk hne] at h
    rw [new_eq_enc]
    exact h

theorem replay_R (n k : ℕ) (hk : k ≤ n) :
    replay (GraySubsets.new n k).init ((R n k).dropLast.map (fun S => (succT S).2)) =
      (R n k).map (bitvecOf n) := by
  rcases Nat.eq_zero_or_pos k with rfl | hk1
  · have hR0 : R n 0 = [[]] := by cases n <;> rfl
    rw [hR0, init_new]
    rfl
  · have hne := R_ne_nil n k hk
    have h := replay_of_chain n (R n k) hne (R_chain n k) (R_valid n k hk1)
    rw [R_head_eq n k hk hne] at h
    rw [init_new]
    exact h

/-- **C1**: For every `n` and `k` with `0 ≤ k ≤ n`, the `GraySubsets` generator
constructed with `(n, k)` emits exactly `max 1 (C(n,k)) - 1` transitions (any
fuel of at least `binomial n k` steps gives the same, exhausted, run), and
replaying them from `init` — the bit-vector of length `n` with bits
`0..k-1` set — by clearing the removed bit and setting the added bit at each
step visits `C(n,k)` distinct subsets, each a 0/1-vector of length `n` with
exactly `k` set bits, with no subset repeated and none omitted. -/
theorem C1_gray_subsets_correct (n k : ℕ) (hk : k ≤ n) :
    (runGray (binomial n k) (GraySubsets.new n k)).length = max 1 (Nat.choose n k) - 1 ∧
    (∀ fuel, binomial n k ≤ fuel →
      runGray fuel (GraySubsets.new n k) = runGray (binomial n k) (GraySubsets.new n k)) ∧
    (replay (GraySubsets.new n k).init
        (runGray (binomial n k) (GraySubsets.new n k))).length = Nat.choose n k ∧
    (replay (GraySubsets.new n k).init
        (runGray (binomial n k) (GraySubsets.new n k))).Nodup ∧
    (∀ v ∈ replay (GraySubsets.new n k).init
        (runGray (binomial n k) (GraySubsets.new n k)),
      v.length = n ∧ (∀ b ∈ v, b = 0 ∨ b = 1) ∧ v.count 1 = k) ∧
    (∀ v : List ℕ, v.length = n → (∀ b ∈ v, b = 0 ∨ b = 1) → v.count 1 = k →
      v ∈ replay (GraySubsets.new n k).init
        (runGray (binomial n k) (GraySubsets.new n k))) := by
  have hbin : binomial n k = Nat.choose n k := binomial_eq_choose n k hk
  have hcpos : 0 < Nat.choose n k := Nat.choose_pos hk
  have hrun : runGray (binomial n k) (GraySubsets.new n k) =
      (R n k).dropLast.map (fun S => (succT S).2) :=
    runGray_R n k hk (binomial n k) (by omega)
  have hvisit : replay (GraySubsets.new n k).init
      (runGray (binomial n k) (GraySubsets.new n k)) = (R n k).map (bitvecOf n) := by
    rw [hrun, replay_R n k hk]
  refine ⟨?_, ?_, ?_, ?_, ?_, ?_⟩
  · rw [hrun, List.length_map, List.length_dropLast, R_length]
    omega
  · intro fuel hfuel
    rw [hrun, runGray_R n k hk fuel (by omega)]
  · rw [hvisit, List.length_map, R_length]
  · rw [hvisit]
    refine List.Nodup.map_on ?_ (R_nodup n k)
    intro S hS T hT hST
    obtain ⟨_, hchS, hbS⟩ := R_mem n k S hS
    obtain ⟨_, hchT, hbT⟩ := R_mem n k T hT
    exact bitvec_inj n S T hchS hchT hbS hbT hST
  · intro v hv
    rw [hvisit] at hv
    obtain ⟨S, hS, rfl⟩ := List.mem_map.mp hv
    obtain ⟨hlen, hchS, hbS⟩ := R_mem n k S hS
    refine ⟨bitvecOf_length n S, ?_, ?_⟩
    · intro b hb
      rw [bitvecOf] at hb
      obtain ⟨i, _, rfl⟩ := List.mem_map.mp hb
      by_cases hmem : i + 1 ∈ S
      · rw [if_pos hmem]
        right
        rfl
      · rw [if_neg hmem]
        left
        rfl
    · rw [bitvec_count n S hchS hbS, hlen]
  · intro v hvlen hvbits hvcount
    rw [hvisit]
    have hchSv : List.Chain' (· < ·)
        ((List.range' 1 n).filter (fun x => v.getD (x - 1) 0 == 1)) :=
      List.chain'_iff_pairwise.mpr ((List.pairwise_lt_range' 1 n).filter _)
    have hbSv : ∀ x ∈ (List.range' 1 n).filter (fun x => v.getD (x - 1) 0 == 1),
        1 ≤ x ∧ x ≤ n := by
      intro x hx
      have := (List.mem_filter.mp hx).1
      simp only [List.mem_range'_1] at this
      omega
    have hlenSv : ((List.range' 1 n).filter (fun x => v.getD (x - 1) 0 == 1)).length = k := by
      rw [filter_range'_shift, List.length_map]
      have h1 := count_one_filter v
      rw [hvlen] at h1
      rw [h1, hvcount]
    have hSv : (List.range' 1 n).filter (fun x => v.getD (x - 1) 0 == 1) ∈ R n k :=
      R_complete n k _ hlenSv hchSv hbSv
    exact List.mem_map.mpr ⟨_, hSv, (bitvec_of_bits n v hvlen hvbits).symm⟩

/-- Closed witness for C1 at `n = 4`, `k = 2`. -/
theorem C1_witness :
    (2 ≤ 4) ∧
    ((runGray (binomial 4 2) (GraySubsets.new 4 2)).length = max 1 (Nat.choose 4 2) - 1 ∧
    (∀ fuel, binomial 4 2 ≤ fuel →
      runGray fuel (GraySubsets.new 4 2) = runGray (binomial 4 2) (GraySubsets.new 4 2)) ∧
    (replay (GraySubsets.new 4 2).init
        (runGray (binomial 4 2) (GraySubsets.new 4 2))).length = Nat.choose 4 2 ∧
    (replay (GraySubsets.new 4 2).init
        (runGray (binomial 4 2) (GraySubsets.new 4 2))).Nodup ∧
    (∀ v ∈ replay (GraySubsets.new 4 2).init
        (runGray (binomial 4 2) (GraySubsets.new 4 2)),
      v.length = 4 ∧ (∀ b ∈ v, b = 0 ∨ b = 1) ∧ v.count 1 = 2) ∧
    (∀ v : List ℕ, v.length = 4 → (∀ b ∈ v, b = 0 ∨ b = 1) → v.count 1 = 2 →
      v ∈ replay (GraySubsets.new 4 2).init
        (runGray (binomial 4 2) (GraySubsets.new 4 2)))) :=
  ⟨by decide, C1_gray_subsets_correct 4 2 (by decide)⟩
